import Mathlib

/-!
# simdjson arm64 kernels: UTF-8 checker and bit manipulation

Shallow embedding of `src/arm64/simdutf8check.h` and `src/arm64/bitmanipulation.h`.

A 128-bit NEON register is a function from the sixteen lane indices to the raw
bit pattern (0..255) of each lane.  Signed intrinsics read the same pattern
through `toS8`.  Every intrinsic is modelled lane by lane after the Arm
intrinsics reference; the checker's member functions thread the checker state
explicitly.
-/

namespace simdjson.arm64

/-! ## NEON registers and intrinsics -/

/-- Sixteen byte lanes, lane 0 first in memory; a lane holds its bit pattern as a number below 256. -/
abbrev V16 := Fin 16 → Nat

/-- Lane `j` of a register, read with a plain natural index (0 outside the register). -/
def lane (v : V16) (j : Nat) : Nat := if h : j < 16 then v ⟨j, h⟩ else 0

/-- Every lane is a byte. -/
def V16.isBytes (v : V16) : Prop := ∀ i, v i < 256

instance (v : V16) : Decidable (V16.isBytes v) := by unfold V16.isBytes; infer_instance

/-- Two's-complement reading of a byte pattern (`int8_t`). -/
def toS8 (x : Nat) : Int := if x < 128 then (x : Int) else (x : Int) - 256

/-- Load sixteen lanes from an array given as a list (`vld1q_s8`, `vld1q_u8`); bytes past the end read as 0. -/
def vld1q (l : List Nat) : V16 := fun i => l.getD i.val 0

/-- Broadcast of one byte (`vdupq_n_u8`, `vdupq_n_s8`: the argument is truncated to 8 bits). -/
def vdupq_n (x : Nat) : V16 := fun _ => x % 256

/-- Lane-wise bitwise or (`vorrq_s8`, `vorrq_u8`). -/
def vorrq (a b : V16) : V16 := fun i => a i ||| b i

/-- Lane-wise bitwise and (`vandq_u8`). -/
def vandq (a b : V16) : V16 := fun i => a i &&& b i

/-- Unsigned saturating subtraction (`vqsubq_u8`). -/
def vqsubq_u8 (a b : V16) : V16 := fun i => a i - b i

/-- Wrapping addition (`vaddq_s8`). -/
def vaddq_s8 (a b : V16) : V16 := fun i => (a i + b i) % 256

/-- Signed greater-than, all ones where it holds (`vcgtq_s8`). -/
def vcgtq_s8 (a b : V16) : V16 := fun i => if toS8 (a i) > toS8 (b i) then 0xFF else 0

/-- Bitwise equality of lanes, all ones where it holds (`vceqq_s8`, `vceqq_u8`). -/
def vceqq (a b : V16) : V16 := fun i => if a i = b i then 0xFF else 0

/-- Extraction from the concatenation of `a` (low) and `b` (high), starting at lane `n` of `a` (`vextq_s8`). -/
def vextq_s8 (a b : V16) (n : Nat) : V16 :=
  fun i => if i.val + n < 16 then lane a (i.val + n) else lane b (i.val + n - 16)

/-- Table lookup (`vqtbl1q_s8`): an index of 16 or more yields 0. -/
def vqtbl1q_s8 (t idx : V16) : V16 := fun i => if idx i < 16 then lane t (idx i) else 0

/-- Logical shift right of every lane (`vshrq_n_u8`). -/
def vshrq_n_u8 (a : V16) (n : Nat) : V16 := fun i => a i >>> n

/-- Little-endian 64-bit value of the eight lanes starting at lane `o`. -/
def leU64 (v : V16) (o : Nat) : Nat :=
  lane v o + 256 * (lane v (o + 1) + 256 * (lane v (o + 2) + 256 * (lane v (o + 3) +
    256 * (lane v (o + 4) + 256 * (lane v (o + 5) + 256 * (lane v (o + 6) +
    256 * lane v (o + 7)))))))

/-- The two 64-bit lanes of a register (`vreinterpretq_u64_u8`, `vreinterpretq_u64_s8`). -/
def vreinterpretq_u64 (v : V16) : Nat × Nat := (leU64 v 0, leU64 v 8)

/-- Saturating narrowing of each 64-bit lane to 32 bits (`vqmovn_u64`). -/
def vqmovn_u64 (v : Nat × Nat) : Nat × Nat := (min v.1 (2 ^ 32 - 1), min v.2 (2 ^ 32 - 1))

/-- Two 32-bit lanes seen as one 64-bit lane (`vreinterpret_u64_u32` then `vget_lane_u64(_, 0)`). -/
def vreinterpret_u64_u32 (v : Nat × Nat) : Nat := v.1 + 2 ^ 32 * v.2

/-! ## Lookup tables -/

/-- Table `_nibbles`: sequence length announced by a high nibble. -/
def _nibbles : List Nat :=
  [1, 1, 1, 1, 1, 1, 1, 1, -- 0xxx (ASCII)
   0, 0, 0, 0,             -- 10xx (continuation)
   2, 2,                   -- 110x
   3,                      -- 1110
   4]                      -- 1111

/-- Table `_initial_mins`, as bit patterns (`-128` is `0x80`). -/
def _initial_mins : List Nat :=
  [0x80, 0x80, 0x80, 0x80, 0x80, 0x80,
   0x80, 0x80, 0x80, 0x80, 0x80, 0x80,
   0xC2, 0x80,
   0xE1,
   0xF1]

/-- Table `_second_mins`, as bit patterns (`-128` is `0x80`, `127` is `0x7F`). -/
def _second_mins : List Nat :=
  [0x80, 0x80, 0x80, 0x80, 0x80, 0x80,
   0x80, 0x80, 0x80, 0x80, 0x80, 0x80,
   0x7F, 0x7F,
   0xA0,
   0x90]

/-! ## The checker -/

/-- Record `processed_utf_bytes`. -/
structure processed_utf_bytes where
  raw_bytes : V16
  high_nibbles : V16
  carried_continuations : V16

/-- Record `utf8_checker`. -/
structure utf8_checker where
  has_error : V16
  previous : processed_utf_bytes

/-- A value-initialised checker: `has_error{}` and `previous{}` are all zero. -/
def utf8_checker.fresh : utf8_checker :=
  { has_error := vdupq_n 0
    previous := { raw_bytes := vdupq_n 0, high_nibbles := vdupq_n 0, carried_continuations := vdupq_n 0 } }

namespace utf8_checker

/-- Member `add_errors`. -/
def add_errors (self : utf8_checker) (errors : V16) : utf8_checker :=
  { self with has_error := vorrq self.has_error errors }

/-- Member `check_smaller_than_0xF4`: the result of the saturating subtraction is
assigned to `has_error`. -/
def check_smaller_than_0xF4 (self : utf8_checker) (current_bytes : V16) : utf8_checker :=
  { self with has_error := vqsubq_u8 current_bytes (vdupq_n 0xF4) }

/-- Member `continuation_lengths`. -/
def continuation_lengths (high_nibbles : V16) : V16 :=
  vqtbl1q_s8 (vld1q _nibbles) high_nibbles

/-- Local `sum` of `carry_continuations`. -/
def carry_sum (self : utf8_checker) (initial_lengths : V16) : V16 :=
  let right1 := vqsubq_u8 (vextq_s8 self.previous.carried_continuations initial_lengths (16 - 1))
    (vdupq_n 1)
  vaddq_s8 initial_lengths right1

/-- Member `carry_continuations`. -/
def carry_continuations (self : utf8_checker) (initial_lengths : V16) : V16 :=
  let sum := carry_sum self initial_lengths
  let right2 := vqsubq_u8 (vextq_s8 self.previous.carried_continuations sum (16 - 2)) (vdupq_n 2)
  vaddq_s8 sum right2

/-- Member `check_continuations`. -/
def check_continuations (self : utf8_checker) (initial_lengths carries : V16) : utf8_checker :=
  let overunder := vceqq (vcgtq_s8 carries initial_lengths) (vcgtq_s8 initial_lengths (vdupq_n 0))
  self.add_errors overunder

/-- Member `check_first_continuation_max`. -/
def check_first_continuation_max (self : utf8_checker) (current_bytes off1_current_bytes : V16) :
    utf8_checker :=
  let maskED := vceqq off1_current_bytes (vdupq_n 0xED)
  let maskF4 := vceqq off1_current_bytes (vdupq_n 0xF4)
  let badfollowED := vandq (vcgtq_s8 current_bytes (vdupq_n 0x9F)) maskED
  let badfollowF4 := vandq (vcgtq_s8 current_bytes (vdupq_n 0x8F)) maskF4
  self.add_errors (vorrq badfollowED badfollowF4)

/-- Member `check_overlong`. -/
def check_overlong (self : utf8_checker) (current_bytes off1_current_bytes high_nibbles : V16) :
    utf8_checker :=
  let off1_hibits := vextq_s8 self.previous.high_nibbles high_nibbles (16 - 1)
  let initial_mins := vqtbl1q_s8 (vld1q _initial_mins) off1_hibits
  let initial_under := vcgtq_s8 initial_mins off1_current_bytes
  let second_mins := vqtbl1q_s8 (vld1q _second_mins) off1_hibits
  let second_under := vcgtq_s8 second_mins current_bytes
  self.add_errors (vandq initial_under second_under)

/-- Member `count_nibbles`: fills `raw_bytes` and `high_nibbles` of the answer. -/
def count_nibbles (bytes : V16) (answer : processed_utf_bytes) : processed_utf_bytes :=
  { answer with raw_bytes := bytes, high_nibbles := vshrq_n_u8 bytes 4 }

/-- Member `check_utf8_bytes`. -/
def check_utf8_bytes (self : utf8_checker) (current_bytes : V16) : utf8_checker :=
  let pb := count_nibbles current_bytes
    { raw_bytes := vdupq_n 0, high_nibbles := vdupq_n 0, carried_continuations := vdupq_n 0 }
  let s1 := self.check_smaller_than_0xF4 current_bytes
  let initial_lengths := continuation_lengths pb.high_nibbles
  let pb := { pb with carried_continuations := s1.carry_continuations initial_lengths }
  let s2 := s1.check_continuations initial_lengths pb.carried_continuations
  let off1_current_bytes := vextq_s8 s2.previous.raw_bytes pb.raw_bytes (16 - 1)
  let s3 := s2.check_first_continuation_max current_bytes off1_current_bytes
  let s4 := s3.check_overlong current_bytes off1_current_bytes pb.high_nibbles
  { s4 with previous := pb }

/-- Member `check_ascii_neon(uint8x16_t)`. -/
def check_ascii_neon (inp : V16) : Bool :=
  let high_bit := vdupq_n 0x80
  let high_bit_on := vandq inp high_bit
  let v64 := vreinterpretq_u64 high_bit_on
  let v32 := vqmovn_u64 v64
  let result := vreinterpret_u64_u32 v32
  result == 0

/-- Member `check_carried_continuations`. -/
def check_carried_continuations (self : utf8_checker) : utf8_checker :=
  let verror := vld1q [9, 9, 9, 9, 9, 9, 9, 9, 9, 9, 9, 9, 9, 9, 9, 1]
  self.add_errors (vcgtq_s8 self.previous.carried_continuations verror)

/-- Member `check_next_input(uint8x16_t)`. -/
def check_next_input (self : utf8_checker) (inp : V16) : utf8_checker :=
  if check_ascii_neon inp then
    self.check_carried_continuations
  else
    self.check_utf8_bytes inp

/-- Member `has_any_errors`. -/
def has_any_errors (self : utf8_checker) : Bool :=
  let v64 := vreinterpretq_u64 self.has_error
  let v32 := vqmovn_u64 v64
  let result := vreinterpret_u64_u32 v32
  result == 0

end utf8_checker

/-! ## Driving the checker over a buffer -/

/-- Modelled from the spec: the caller that loads windows is not in the sources.  The window
of sixteen bytes at the head of a buffer, read past the end as zero padding. -/
def loadWindow (s : List Nat) : V16 := vld1q s

/-- The first `n` consecutive sixteen-byte windows of a buffer. -/
def windowsAux : Nat → List Nat → List V16
  | 0, _ => []
  | n + 1, s => loadWindow s :: windowsAux n (s.drop 16)

/-- Modelled from the spec: all sixteen-byte windows of a buffer padded with zero bytes to a
multiple of sixteen, in buffer order. -/
def windows (s : List Nat) : List V16 := windowsAux ((s.length + 15) / 16) s

/-- Modelled from the spec: the caller feeds the windows in strict left-to-right order through
`check_next_input`. -/
def feed (st : utf8_checker) (ws : List V16) : utf8_checker := ws.foldl utf8_checker.check_next_input st

/-- Modelled from the spec: a full run over a list of windows is a fresh checker, every window
in order, then the tail check `check_carried_continuations`. -/
def runWindows (ws : List V16) : utf8_checker :=
  (feed utf8_checker.fresh ws).check_carried_continuations

/-- A full run over a byte buffer. -/
def validate (s : List Nat) : utf8_checker := runWindows (windows s)

/-! ## Bit manipulation (`bitmanipulation.h`) -/

/-- Bit scan from the least significant bit: the number of zero bits met before the first
set bit, looking at no more than `fuel` bits. -/
def ctzScan : Nat → Nat → Nat
  | 0, _ => 0
  | fuel + 1, x => if x % 2 = 1 then 0 else 1 + ctzScan fuel (x / 2)

/-- The compiler builtin `__builtin_ctzll` on a 64-bit operand (its result for 0 is not
defined by the compiler; the scan yields 64 there). -/
def __builtin_ctzll (x : Nat) : Nat := ctzScan 64 (x % 2 ^ 64)

/-- Function `trailing_zeroes` (the `int` result is never negative). -/
def trailing_zeroes (input_num : Nat) : Nat := __builtin_ctzll input_num

/-! ## Well-formed UTF-8 (the table of legal byte sequences) -/

/-- A continuation byte, `80..BF`. -/
def isCont (b : Nat) : Bool := decide (0x80 ≤ b) && decide (b ≤ 0xBF)

/-- Row `U+0080..U+07FF`: `C2..DF 80..BF`. -/
def legal2 (b0 b1 : Nat) : Bool := decide (0xC2 ≤ b0) && decide (b0 ≤ 0xDF) && isCont b1

/-- Rows `U+0800..U+FFFF`: `E0 A0..BF`, `E1..EC 80..BF`, `ED 80..9F`, `EE..EF 80..BF`, then `80..BF`. -/
def legal3 (b0 b1 b2 : Nat) : Bool :=
  ((decide (b0 = 0xE0) && decide (0xA0 ≤ b1) && decide (b1 ≤ 0xBF)) ||
   (decide (0xE1 ≤ b0) && decide (b0 ≤ 0xEC) && isCont b1) ||
   (decide (b0 = 0xED) && decide (0x80 ≤ b1) && decide (b1 ≤ 0x9F)) ||
   (decide (0xEE ≤ b0) && decide (b0 ≤ 0xEF) && isCont b1)) && isCont b2

/-- Rows `U+10000..U+10FFFF`: `F0 90..BF`, `F1..F3 80..BF`, `F4 80..8F`, then `80..BF 80..BF`. -/
def legal4 (b0 b1 b2 b3 : Nat) : Bool :=
  ((decide (b0 = 0xF0) && decide (0x90 ≤ b1) && decide (b1 ≤ 0xBF)) ||
   (decide (0xF1 ≤ b0) && decide (b0 ≤ 0xF3) && isCont b1) ||
   (decide (b0 = 0xF4) && decide (0x80 ≤ b1) && decide (b1 ≤ 0x8F))) && isCont b2 && isCont b3

/-- A proper, non-empty beginning of a legal multi-byte sequence of the table: a leader alone,
or a leader with fewer continuation bytes than it announces, each in the range of its row. -/
def incompleteSeq : List Nat → Bool
  | [b0] => decide (0xC2 ≤ b0) && decide (b0 ≤ 0xF4)
  | [b0, b1] => legal3 b0 b1 0x80 || legal4 b0 b1 0x80 0x80
  | [b0, b1, b2] => legal4 b0 b1 b2 0x80
  | _ => false

/-- A byte string is well-formed UTF-8 when it splits into sequences of the table. -/
def wellFormedUtf8 : List Nat → Bool
  | [] => true
  | [b0] => decide (b0 ≤ 0x7F)
  | [b0, b1] => (decide (b0 ≤ 0x7F) && wellFormedUtf8 [b1]) || legal2 b0 b1
  | [b0, b1, b2] =>
    (decide (b0 ≤ 0x7F) && wellFormedUtf8 [b1, b2]) || (legal2 b0 b1 && wellFormedUtf8 [b2]) ||
      legal3 b0 b1 b2
  | b0 :: b1 :: b2 :: b3 :: s =>
    (decide (b0 ≤ 0x7F) && wellFormedUtf8 (b1 :: b2 :: b3 :: s)) ||
      (legal2 b0 b1 && wellFormedUtf8 (b2 :: b3 :: s)) ||
      (legal3 b0 b1 b2 && wellFormedUtf8 (b3 :: s)) ||
      (legal4 b0 b1 b2 b3 && wellFormedUtf8 s)

/-! ## Automaton and lane machine used in the proofs -/

/-- States of the byte-level automaton for the legal sequences. -/
inductive Q where
  | q0 | c2 | badC | e0 | ed | e3 | f0 | f4 | f3 | m3 | m4a | m4b
  deriving DecidableEq, Repr

/-- One transition of the automaton; `none` rejects.  `badC` is entered on `C0`/`C1` and has no way out. -/
def step : Q → Nat → Option Q
  | .q0, b =>
    if b ≤ 0x7F then some .q0
    else if b < 0xC0 then none
    else if b < 0xC2 then some .badC
    else if b ≤ 0xDF then some .c2
    else if b = 0xE0 then some .e0
    else if b = 0xED then some .ed
    else if b ≤ 0xEF then some .e3
    else if b = 0xF0 then some .f0
    else if b ≤ 0xF3 then some .f3
    else if b = 0xF4 then some .f4
    else none
  | .c2, b => if 0x80 ≤ b ∧ b ≤ 0xBF then some .q0 else none
  | .badC, _ => none
  | .e0, b => if 0xA0 ≤ b ∧ b ≤ 0xBF then some .m3 else none
  | .ed, b => if 0x80 ≤ b ∧ b ≤ 0x9F then some .m3 else none
  | .e3, b => if 0x80 ≤ b ∧ b ≤ 0xBF then some .m3 else none
  | .f0, b => if 0x90 ≤ b ∧ b ≤ 0xBF then some .m4a else none
  | .f4, b => if 0x80 ≤ b ∧ b ≤ 0x8F then some .m4a else none
  | .f3, b => if 0x80 ≤ b ∧ b ≤ 0xBF then some .m4a else none
  | .m3, b => if 0x80 ≤ b ∧ b ≤ 0xBF then some .q0 else none
  | .m4a, b => if 0x80 ≤ b ∧ b ≤ 0xBF then some .m4b else none
  | .m4b, b => if 0x80 ≤ b ∧ b ≤ 0xBF then some .q0 else none

/-- What one lane of `check_utf8_bytes` reads from its left neighbours: `A` feeds `right1`,
`B` feeds `right2`, `C` is of the next lane the `B`, `P` and `H` are the byte and high nibble one
position back, `D` and `E` the carried lengths one and two positions back. -/
structure LaneSt where
  A : Nat
  B : Nat
  C : Nat
  P : Nat
  H : Nat
  D : Nat
  E : Nat

def lenN (b : Nat) : Nat :=
  if b < 0x80 then 1 else if b < 0xC0 then 0 else if b < 0xE0 then 2 else if b < 0xF0 then 3 else 4

def laneStepN (s : LaneSt) (b : Nat) : LaneSt :=
  { A := lenN b, B := s.C, C := lenN b + (s.A - 1), P := b, H := b / 16,
    D := lenN b + (s.A - 1) + (s.B - 2), E := s.D }

def laneOkN (s : LaneSt) (b : Nat) : Prop :=
  b ≤ 0xF4 ∧
  ¬ (lenN b + (s.A - 1) + (s.B - 2) > lenN b ↔ lenN b > 0) ∧
  ¬ (s.P = 0xED ∧ (b < 0x80 ∨ 0xA0 ≤ b)) ∧
  ¬ (s.P = 0xF4 ∧ (b < 0x80 ∨ 0x90 ≤ b)) ∧
  ¬ ((s.H = 12 ∧ 0x80 ≤ s.P ∧ s.P < 0xC2 ∧ b ≠ 0x7F) ∨
     (s.H = 14 ∧ 0x80 ≤ s.P ∧ s.P < 0xE1 ∧ 0x80 ≤ b ∧ b < 0xA0) ∨
     (s.H = 15 ∧ 0x80 ≤ s.P ∧ s.P < 0xF1 ∧ 0x80 ≤ b ∧ b < 0x90))

def K (i : Nat) : Q → LaneSt → Prop
  | .q0, s => s.A ≤ 1 ∧ s.B ≤ 2 ∧ s.C ≤ 1 ∧ s.P < 0xC0 ∧ s.H < 12 ∧ s.D ≤ 4 ∧
      (i ≠ 1 → s.D ≤ 1) ∧ (i ≠ 2 → s.E ≤ 2)
  | .c2, s => s.A = 2 ∧ s.B ≤ 2 ∧ s.C = 2 ∧ 0xC2 ≤ s.P ∧ s.P ≤ 0xDF ∧ s.H = s.P / 16 ∧ s.D = 2 ∧
      (i ≠ 2 → s.E ≤ 2)
  | .badC, s => s.A = 2 ∧ s.B ≤ 2 ∧ s.C = 2 ∧ 0xC0 ≤ s.P ∧ s.P ≤ 0xC1 ∧ s.H = s.P / 16 ∧ s.D = 2 ∧
      (i ≠ 2 → s.E ≤ 2)
  | .e0, s => s.A = 3 ∧ s.B ≤ 2 ∧ s.C = 3 ∧ s.P = 0xE0 ∧ s.H = 14 ∧ s.D = 3 ∧ (i ≠ 2 → s.E ≤ 2)
  | .ed, s => s.A = 3 ∧ s.B ≤ 2 ∧ s.C = 3 ∧ s.P = 0xED ∧ s.H = 14 ∧ s.D = 3 ∧ (i ≠ 2 → s.E ≤ 2)
  | .e3, s => s.A = 3 ∧ s.B ≤ 2 ∧ s.C = 3 ∧ 0xE1 ≤ s.P ∧ s.P ≤ 0xEF ∧ s.P ≠ 0xED ∧ s.H = 14 ∧
      s.D = 3 ∧ (i ≠ 2 → s.E ≤ 2)
  | .f0, s => s.A = 4 ∧ s.B ≤ 2 ∧ s.C = 4 ∧ s.P = 0xF0 ∧ s.H = 15 ∧ s.D = 4 ∧ (i ≠ 2 → s.E ≤ 2)
  | .f4, s => s.A = 4 ∧ s.B ≤ 2 ∧ s.C = 4 ∧ s.P = 0xF4 ∧ s.H = 15 ∧ s.D = 4 ∧ (i ≠ 2 → s.E ≤ 2)
  | .f3, s => s.A = 4 ∧ s.B ≤ 2 ∧ s.C = 4 ∧ 0xF1 ≤ s.P ∧ s.P ≤ 0xF3 ∧ s.H = 15 ∧ s.D = 4 ∧
      (i ≠ 2 → s.E ≤ 2)
  | .m3, s => s.A ≤ 2 ∧ (1 ≤ i → s.A = 0) ∧ s.B = 3 ∧ s.C = 2 ∧ s.P < 0xC0 ∧ s.H < 12 ∧
      s.D = 2 ∧ s.E = 3
  | .m4a, s => s.A ≤ 3 ∧ (1 ≤ i → s.A = 0) ∧ s.B = 4 ∧ s.C = 3 ∧ s.P < 0xC0 ∧ s.H < 12 ∧
      s.D = 3 ∧ s.E = 4
  | .m4b, s => s.A ≤ 2 ∧ (1 ≤ i → s.A = 0) ∧ s.B = 3 ∧ s.C ≤ 2 ∧ s.P < 0xC0 ∧ s.H < 12 ∧
      s.D ≤ 4 ∧ (i ≠ 1 → s.D = 2) ∧ s.E = 3

/-- The byte range a state other than `q0` accepts, and where it leads. -/
def accepts : Q → Nat × Nat × Q
  | .q0 => (1, 0, .q0)
  | .c2 => (0x80, 0xBF, .q0)
  | .badC => (1, 0, .q0)
  | .e0 => (0xA0, 0xBF, .m3)
  | .ed => (0x80, 0x9F, .m3)
  | .e3 => (0x80, 0xBF, .m3)
  | .f0 => (0x90, 0xBF, .m4a)
  | .f4 => (0x80, 0x8F, .m4a)
  | .f3 => (0x80, 0xBF, .m4a)
  | .m3 => (0x80, 0xBF, .q0)
  | .m4a => (0x80, 0xBF, .m4b)
  | .m4b => (0x80, 0xBF, .q0)

/-- Run of the automaton over a byte list. -/
def dfaRun : Q → List Nat → Option Q
  | q, [] => some q
  | q, b :: s => (step q b).bind (fun q1 => dfaRun q1 s)

/-- Lane of `continuation_lengths` for a byte. -/
def lenOf (b : Nat) : Nat := if b >>> 4 < 16 then lane (vld1q _nibbles) (b >>> 4) else 0

/-- Lane of the `_initial_mins` lookup for a high nibble. -/
def iminOf (h : Nat) : Nat := if h < 16 then lane (vld1q _initial_mins) h else 0

/-- Lane of the `_second_mins` lookup for a high nibble. -/
def sminOf (h : Nat) : Nat := if h < 16 then lane (vld1q _second_mins) h else 0

/-- One lane of `check_utf8_bytes`, as a transition on what the next lane will read. -/
def laneStep (s : LaneSt) (b : Nat) : LaneSt :=
  { A := lenOf b, B := s.C, C := (lenOf b + (s.A - 1)) % 256, P := b, H := b >>> 4,
    D := ((lenOf b + (s.A - 1)) % 256 + (s.B - 2)) % 256, E := s.D }

/-- The lane of `has_error` that `check_utf8_bytes` computes from a byte and its left context. -/
def laneErr (s : LaneSt) (b : Nat) : Nat :=
  (((b - 0xF4) |||
    (if (if toS8 (((lenOf b + (s.A - 1)) % 256 + (s.B - 2)) % 256) > toS8 (lenOf b) then 0xFF else 0)
        = (if toS8 (lenOf b) > toS8 0 then 0xFF else 0) then 0xFF else 0)) |||
    (((if toS8 b > toS8 0x9F then 0xFF else 0) &&& (if s.P = 0xED then 0xFF else 0)) |||
     ((if toS8 b > toS8 0x8F then 0xFF else 0) &&& (if s.P = 0xF4 then 0xFF else 0)))) |||
    ((if toS8 (iminOf s.H) > toS8 s.P then 0xFF else 0) &&&
     (if toS8 (sminOf s.H) > toS8 b then 0xFF else 0))

/-- What lane 0 reads from `previous`. -/
def seed (st : utf8_checker) : LaneSt :=
  { A := lane st.previous.carried_continuations 15
    B := lane st.previous.carried_continuations 14
    C := lane st.previous.carried_continuations 15
    P := lane st.previous.raw_bytes 15
    H := lane st.previous.high_nibbles 15
    D := lane st.previous.carried_continuations 15
    E := lane st.previous.carried_continuations 14 }

/-- The left context of lane `i` of a window processed from checker state `st`. -/
def laneRun (st : utf8_checker) (w : V16) : Nat → LaneSt
  | 0 => seed st
  | i + 1 => laneStep (laneRun st w i) (lane w i)

/-- Closed form of `laneRun`: the left context of lane `i`, read off the registers that
`check_utf8_bytes` computes for the window. -/
def laneCtx (st : utf8_checker) (w : V16) (i : Nat) : LaneSt :=
  let c := st.previous.carried_continuations
  let init := utf8_checker.continuation_lengths (vshrq_n_u8 w 4)
  let sum := utf8_checker.carry_sum st init
  let carr := utf8_checker.carry_continuations st init
  { A := if i = 0 then lane c 15 else lane init (i - 1)
    B := if i = 0 then lane c 14 else if i = 1 then lane c 15 else lane sum (i - 2)
    C := if i = 0 then lane c 15 else lane sum (i - 1)
    P := if i = 0 then lane st.previous.raw_bytes 15 else lane w (i - 1)
    H := if i = 0 then lane st.previous.high_nibbles 15 else lane w (i - 1) >>> 4
    D := if i = 0 then lane c 15 else lane carr (i - 1)
    E := if i = 0 then lane c 14 else if i = 1 then lane c 15 else lane carr (i - 2) }

/-- Window-level invariant: no error so far, carried lengths small, and the lookback agrees
with the automaton state `q` reached at the end of the last processed window. -/
def Inv (st : utf8_checker) (q : Q) : Prop :=
  (∀ i, st.has_error i = 0) ∧ (∀ i, st.previous.carried_continuations i ≤ 4) ∧ K 0 q (seed st)

/-- The lanes of a register as a list. -/
def V16.toList (v : V16) : List Nat := (List.range 16).map (lane v)

/-- The bytes of a list of windows, in order. -/
def windowBytes : List V16 → List Nat
  | [] => []
  | w :: ws => w.toList ++ windowBytes ws

/-! ## Bit manipulation (`bitmanipulation.h`), continued -/

/-- Function `clear_lowest_bit`: `input_num & (input_num-1)` on `uint64_t`, where the
subtraction wraps. -/
def clear_lowest_bit (input_num : Nat) : Nat :=
  input_num &&& ((input_num + 2 ^ 64 - 1) % 2 ^ 64)

/-- Scan from bit `n - 1` downwards: the number of clear bits met before the first set bit. -/
def clzScan : Nat → Nat → Nat
  | 0, _ => 0
  | n + 1, x => if x.testBit n then 0 else 1 + clzScan n x

/-- The compiler builtin `__builtin_clzll` on a 64-bit operand: the number of leading zero
bits; the compiler defines no result for 0, which is `none` here. -/
def __builtin_clzll (x : Nat) : Option Nat :=
  if x % 2 ^ 64 = 0 then none else some (clzScan 64 (x % 2 ^ 64))

/-- Scan from bit `n - 1` downwards for the index of the first set bit. -/
def bsrScan : Nat → Nat → Option Nat
  | 0, _ => none
  | n + 1, x => if x.testBit n then some n else bsrScan n x

/-- The MSVC intrinsic `_BitScanReverse64`: `some` index of the highest set bit (return value
nonzero), or `none` when the mask is zero (return value zero). -/
def _BitScanReverse64 (mask : Nat) : Option Nat := bsrScan 64 (mask % 2 ^ 64)

/-- Function `leading_zeroes`; `msvc` selects the `_MSC_VER` branch.  `none` stands for a
result that is not defined. -/
def leading_zeroes (msvc : Bool) (input_num : Nat) : Option Nat :=
  if msvc then
    match _BitScanReverse64 input_num with
    | some leading_zero => some (63 - leading_zero)
    | none => some 64
  else
    __builtin_clzll input_num

/-- Number of set bits among the `n` lowest bits. -/
def bitCount : Nat → Nat → Nat
  | 0, _ => 0
  | n + 1, x => bitCount n x + (x.testBit n).toNat

/-- Reinterpretation `(uint8x8_t)input_num`: lane `k` is byte `k` of the 64-bit value, least
significant first. -/
def toU8x8 (input_num : Nat) : Fin 8 → Nat := fun k => (input_num >>> (8 * k.val)) % 256

/-- Per-lane population count of eight byte lanes (`vcnt_u8`). -/
def vcnt_u8 (v : Fin 8 → Nat) : Fin 8 → Nat := fun k => bitCount 8 (v k)

/-- Sum across the eight lanes, as an 8-bit value (`vaddv_u8`). -/
def vaddv_u8 (v : Fin 8 → Nat) : Nat :=
  (v 0 + v 1 + v 2 + v 3 + v 4 + v 5 + v 6 + v 7) % 256

/-- Function `hamming`. -/
def hamming (input_num : Nat) : Nat := vaddv_u8 (vcnt_u8 (toU8x8 input_num))

/-- The helper `population_count` in the words of the spec: the total number of set bits across
the whole 64-bit word. -/
def population_count (x : Nat) : Nat := bitCount 64 x

/-- The compiler builtin `__builtin_uaddll_overflow`: the sum is taken with unlimited precision
and stored truncated to 64 bits; the flag tells whether the stored value differs from it. -/
def __builtin_uaddll_overflow (a b : Nat) : Bool × Nat :=
  let exact := a + b
  let stored := exact % 2 ^ 64
  (decide (stored ≠ exact), stored)

/-- The MSVC intrinsic `_addcarry_u64`: carry out and the 64-bit sum of carry in and operands. -/
def _addcarry_u64 (c_in a b : Nat) : Nat × Nat :=
  ((c_in + a + b) / 2 ^ 64, (c_in + a + b) % 2 ^ 64)

/-- Function `add_overflow`: the returned flag and the value stored through `result`; `msvc`
selects the `_MSC_VER` branch. -/
def add_overflow (msvc : Bool) (value1 value2 : Nat) : Bool × Nat :=
  if msvc then
    let r := _addcarry_u64 0 value1 value2
    (decide (r.1 ≠ 0), r.2)
  else
    __builtin_uaddll_overflow value1 value2

/-- The compiler builtin `__builtin_umulll_overflow`. -/
def __builtin_umulll_overflow (a b : Nat) : Bool × Nat :=
  let exact := a * b
  let stored := exact % 2 ^ 64
  (decide (stored ≠ exact), stored)

/-- The MSVC intrinsic `_umul128`: low and high 64 bits of the 128-bit product. -/
def _umul128 (a b : Nat) : Nat × Nat := ((a * b) % 2 ^ 64, (a * b) / 2 ^ 64 % 2 ^ 64)

/-- Function `mul_overflow`: the returned flag (`high` converted to `bool` on the `_MSC_VER`
branch) and the value stored through `result`. -/
def mul_overflow (msvc : Bool) (value1 value2 : Nat) : Bool × Nat :=
  if msvc then
    let r := _umul128 value1 value2
    (decide (r.2 ≠ 0), r.1)
  else
    __builtin_umulll_overflow value1 value2

/-! ## Reading of the carried length -/

/-- Length of the sequence announced by a first byte of the table (`C2..DF` two, `E0..EF`
three, `F0..F4` four, otherwise one). -/
def seqLen (b : Nat) : Nat :=
  if b < 0xC0 then 1 else if b < 0xE0 then 2 else if b < 0xF0 then 3 else 4

/-- Per position, the number of bytes from that position to the end of its character, itself
included; `k` is the number of bytes still owed to a character begun earlier. -/
def remAux : Nat → List Nat → List Nat
  | _, [] => []
  | 0, b :: s => seqLen b :: remAux (seqLen b - 1) s
  | k + 1, _ :: s => (k + 1) :: remAux k s

/-- The carried length in the words of the spec: `n` at the leader of an `n`-byte character,
then `n - 1`, ..., `1` on its continuation bytes, `1` on an ASCII byte. -/
def remainingBytes (s : List Nat) : List Nat := remAux 0 s

/-- Number of bytes a state of the automaton still awaits to finish the current character. -/
def pending : Q → Nat
  | .q0 => 0
  | .c2 => 1
  | .badC => 1
  | .e0 => 2
  | .ed => 2
  | .e3 => 2
  | .f0 => 3
  | .f4 => 3
  | .f3 => 3
  | .m3 => 1
  | .m4a => 2
  | .m4b => 1

end simdjson.arm64

namespace simdjson.haswell

/-! ## The haswell `simd_input` (`haswell/simd_input.h`) -/

/-- A 256-bit AVX2 register seen as thirty-two byte lanes. -/
abbrev M256 := Fin 32 → Nat

/-- Struct `simd_input`: `chunks[0]` and `chunks[1]`. -/
structure simd_input where
  chunks0 : M256
  chunks1 : M256

/-- Byte `i` of the 64-byte window: `chunks[0]` holds bytes 0..31, `chunks[1]` bytes 32..63. -/
def simd_input.byte (inp : simd_input) (i : Nat) : Nat :=
  if h : i < 32 then inp.chunks0 ⟨i, h⟩
  else if h2 : i - 32 < 32 then inp.chunks1 ⟨i - 32, h2⟩ else 0

/-- Sum of `2 ^ i` over the `i < n` with `f i`. -/
def maskBits (f : Nat → Bool) : Nat → Nat
  | 0 => 0
  | n + 1 => maskBits f n + (if f n then 2 ^ n else 0)

/-- Lane `i` of a register read with a natural index. -/
def lane32 (a : M256) (i : Nat) : Nat := if h : i < 32 then a ⟨i, h⟩ else 0

/-- Intrinsic `_mm256_movemask_epi8`: bit `i` of the result is the most significant bit of
lane `i`; the result is an `int`, negative when bit 31 is set. -/
def _mm256_movemask_epi8 (a : M256) : Int :=
  let bits := maskBits (fun i => (lane32 a i).testBit 7) 32
  if bits < 2 ^ 31 then (bits : Int) else (bits : Int) - 2 ^ 32

/-- Intrinsic `_mm256_set1_epi8`. -/
def _mm256_set1_epi8 (m : Nat) : M256 := fun _ => m % 256

/-- Intrinsic `_mm256_cmpeq_epi8`. -/
def _mm256_cmpeq_epi8 (a b : M256) : M256 := fun i => if a i = b i then 0xFF else 0

/-- Intrinsic `_mm256_max_epu8`. -/
def _mm256_max_epu8 (a b : M256) : M256 := fun i => max (a i) (b i)

/-- Intrinsic `_mm256_or_si256`. -/
def _mm256_or_si256 (a b : M256) : M256 := fun i => a i ||| b i

namespace simd_input

/-- Member `map` with one chunk function. -/
def map (self : simd_input) (map_chunk : M256 → M256) : simd_input :=
  { chunks0 := map_chunk self.chunks0, chunks1 := map_chunk self.chunks1 }

/-- Member `to_bitmask`: `r_lo` is the first mask converted to `uint32_t` and widened, `r_hi`
the second mask converted from `int` to `uint64_t`; the shift is a 64-bit shift. -/
def to_bitmask (self : simd_input) : Nat :=
  let r_lo : Nat := (_mm256_movemask_epi8 self.chunks0 % 2 ^ 32).toNat
  let r_hi : Nat := (_mm256_movemask_epi8 self.chunks1 % 2 ^ 64).toNat
  r_lo ||| ((r_hi <<< 32) % 2 ^ 64)

/-- Member `bit_or`. -/
def bit_or (self : simd_input) (m : Nat) : simd_input :=
  let mask := _mm256_set1_epi8 m
  self.map (fun a => _mm256_or_si256 a mask)

/-- Member `eq`. -/
def eq (self : simd_input) (m : Nat) : Nat :=
  let mask := _mm256_set1_epi8 m
  (self.map (fun a => _mm256_cmpeq_epi8 a mask)).to_bitmask

/-- Member `lteq`. -/
def lteq (self : simd_input) (m : Nat) : Nat :=
  let maxval := _mm256_set1_epi8 m
  (self.map (fun a => _mm256_cmpeq_epi8 (_mm256_max_epu8 maxval a) maxval)).to_bitmask

end simd_input

end simdjson.haswell

namespace simdjson.arm64

/-! ## The table parser and the automaton accept the same strings -/

theorem wf_ascii (b : Nat) (s : List Nat) (hb : b ≤ 0x7F) (h : wellFormedUtf8 s = true) :
    wellFormedUtf8 (b :: s) = true := by
  match s, h with
  | [], _ => simp [wellFormedUtf8, hb]
  | [b1], h => simp [wellFormedUtf8, hb] at h ⊢; simp [h]
  | [b1, b2], h => rw [wellFormedUtf8]; simp [hb, h]
  | b1 :: b2 :: b3 :: s, h => rw [wellFormedUtf8]; simp [hb, h]

theorem wf_two (b0 b1 : Nat) (s : List Nat) (hb : legal2 b0 b1 = true)
    (h : wellFormedUtf8 s = true) : wellFormedUtf8 (b0 :: b1 :: s) = true := by
  match s, h with
  | [], _ => simp [wellFormedUtf8, hb]
  | [b2], h => rw [wellFormedUtf8]; simp [hb, h]
  | b2 :: b3 :: s, h => rw [wellFormedUtf8]; simp [hb, h]

theorem wf_three (b0 b1 b2 : Nat) (s : List Nat) (hb : legal3 b0 b1 b2 = true)
    (h : wellFormedUtf8 s = true) : wellFormedUtf8 (b0 :: b1 :: b2 :: s) = true := by
  match s, h with
  | [], _ => simp [wellFormedUtf8, hb]
  | b3 :: s, h => rw [wellFormedUtf8]; simp [hb, h]

theorem wf_four (b0 b1 b2 b3 : Nat) (s : List Nat) (hb : legal4 b0 b1 b2 b3 = true)
    (h : wellFormedUtf8 s = true) : wellFormedUtf8 (b0 :: b1 :: b2 :: b3 :: s) = true := by
  rw [wellFormedUtf8]; simp [hb, h]

theorem wf_elim (b0 : Nat) (s : List Nat) (h : wellFormedUtf8 (b0 :: s) = true) :
    (b0 ≤ 0x7F ∧ wellFormedUtf8 s = true) ∨
    (∃ b1 s1, s = b1 :: s1 ∧ legal2 b0 b1 = true ∧ wellFormedUtf8 s1 = true) ∨
    (∃ b1 b2 s2, s = b1 :: b2 :: s2 ∧ legal3 b0 b1 b2 = true ∧ wellFormedUtf8 s2 = true) ∨
    (∃ b1 b2 b3 s3, s = b1 :: b2 :: b3 :: s3 ∧ legal4 b0 b1 b2 b3 = true ∧
      wellFormedUtf8 s3 = true) := by
  match s, h with
  | [], h =>
    simp only [wellFormedUtf8, decide_eq_true_eq] at h
    exact Or.inl ⟨h, rfl⟩
  | [b1], h =>
    rw [wellFormedUtf8] at h
    simp only [Bool.or_eq_true, Bool.and_eq_true, decide_eq_true_eq] at h
    rcases h with h | h
    · exact Or.inl h
    · exact Or.inr (Or.inl ⟨b1, [], rfl, h, rfl⟩)
  | [b1, b2], h =>
    rw [wellFormedUtf8] at h
    simp only [Bool.or_eq_true, Bool.and_eq_true, decide_eq_true_eq] at h
    rcases h with (h | h) | h
    · exact Or.inl h
    · exact Or.inr (Or.inl ⟨b1, [b2], rfl, h⟩)
    · exact Or.inr (Or.inr (Or.inl ⟨b1, b2, [], rfl, h, rfl⟩))
  | b1 :: b2 :: b3 :: s, h =>
    rw [wellFormedUtf8] at h
    simp only [Bool.or_eq_true, Bool.and_eq_true, decide_eq_true_eq] at h
    rcases h with ((h | h) | h) | h
    · exact Or.inl h
    · exact Or.inr (Or.inl ⟨b1, _, rfl, h⟩)
    · exact Or.inr (Or.inr (Or.inl ⟨b1, b2, _, rfl, h⟩))
    · exact Or.inr (Or.inr (Or.inr ⟨b1, b2, b3, s, rfl, h⟩))

theorem dfaRun_append (q : Q) (l1 l2 : List Nat) :
    dfaRun q (l1 ++ l2) = (dfaRun q l1).bind (fun q1 => dfaRun q1 l2) := by
  induction l1 generalizing q with
  | nil => simp [dfaRun]
  | cons b l ih =>
    simp only [List.cons_append, dfaRun]
    cases step q b with
    | none => simp
    | some q1 => simp [ih]

theorem step_q0_ascii (b : Nat) (hb : b ≤ 0x7F) : step .q0 b = some .q0 := by
  simp [step, hb]

theorem step_cont_c2 (b : Nat) (hb : isCont b = true) : step .c2 b = some .q0 := by
  simp only [isCont, Bool.and_eq_true, decide_eq_true_eq] at hb
  simp [step, hb]

theorem step_cont_m3 (b : Nat) (hb : isCont b = true) : step .m3 b = some .q0 := by
  simp only [isCont, Bool.and_eq_true, decide_eq_true_eq] at hb
  simp [step, hb]

theorem step_cont_m4a (b : Nat) (hb : isCont b = true) : step .m4a b = some .m4b := by
  simp only [isCont, Bool.and_eq_true, decide_eq_true_eq] at hb
  simp [step, hb]

theorem step_cont_m4b (b : Nat) (hb : isCont b = true) : step .m4b b = some .q0 := by
  simp only [isCont, Bool.and_eq_true, decide_eq_true_eq] at hb
  simp [step, hb]

theorem step_q0_c2 (b : Nat) (h1 : 0xC2 ≤ b) (h2 : b ≤ 0xDF) : step .q0 b = some .c2 := by
  simp only [step]
  split_ifs <;> first | rfl | omega

theorem step_q0_e3 (b : Nat) (h1 : 0xE1 ≤ b) (h2 : b ≤ 0xEF) (h3 : b ≠ 0xED) :
    step .q0 b = some .e3 := by
  simp only [step]
  split_ifs <;> first | rfl | omega

theorem step_q0_f3 (b : Nat) (h1 : 0xF1 ≤ b) (h2 : b ≤ 0xF3) : step .q0 b = some .f3 := by
  simp only [step]
  split_ifs <;> first | rfl | omega

theorem dfa_two (b0 b1 : Nat) (s : List Nat) (q1 q2 : Q) (h0 : step .q0 b0 = some q1)
    (h1 : step q1 b1 = some q2) : dfaRun .q0 (b0 :: b1 :: s) = dfaRun q2 s := by
  simp [dfaRun, h0, h1]

theorem dfa_legal2 (b0 b1 : Nat) (s : List Nat) (h : legal2 b0 b1 = true) :
    dfaRun .q0 (b0 :: b1 :: s) = dfaRun .q0 s := by
  simp only [legal2, Bool.and_eq_true, decide_eq_true_eq] at h
  exact dfa_two b0 b1 s .c2 .q0 (step_q0_c2 b0 h.1.1 h.1.2) (step_cont_c2 b1 h.2)

theorem dfa_legal3 (b0 b1 b2 : Nat) (s : List Nat) (h : legal3 b0 b1 b2 = true) :
    dfaRun .q0 (b0 :: b1 :: b2 :: s) = dfaRun .q0 s := by
  simp only [legal3, Bool.and_eq_true, Bool.or_eq_true, decide_eq_true_eq] at h
  obtain ⟨h1, h2⟩ := h
  have e3 : dfaRun .m3 (b2 :: s) = dfaRun .q0 s := by simp [dfaRun, step_cont_m3 b2 h2]
  rw [← e3]
  rcases h1 with ((⟨⟨h0, h3⟩, h4⟩ | ⟨⟨h0, h3⟩, h4⟩) | ⟨⟨h0, h3⟩, h4⟩) | ⟨⟨h0, h3⟩, h4⟩
  · exact dfa_two b0 b1 _ .e0 .m3 (by rw [h0]; rfl) (by simp [step, h3, h4])
  · simp only [isCont, Bool.and_eq_true, decide_eq_true_eq] at h4
    exact dfa_two b0 b1 _ .e3 .m3 (step_q0_e3 b0 h0 (by omega) (by omega)) (by simp [step, h4])
  · exact dfa_two b0 b1 _ .ed .m3 (by rw [h0]; rfl) (by simp [step, h3, h4])
  · simp only [isCont, Bool.and_eq_true, decide_eq_true_eq] at h4
    exact dfa_two b0 b1 _ .e3 .m3 (step_q0_e3 b0 (by omega) h3 (by omega)) (by simp [step, h4])

theorem dfa_legal4 (b0 b1 b2 b3 : Nat) (s : List Nat) (h : legal4 b0 b1 b2 b3 = true) :
    dfaRun .q0 (b0 :: b1 :: b2 :: b3 :: s) = dfaRun .q0 s := by
  simp only [legal4, Bool.and_eq_true, Bool.or_eq_true, decide_eq_true_eq] at h
  obtain ⟨⟨h1, h2⟩, h5⟩ := h
  have e3 : dfaRun .m4a (b2 :: b3 :: s) = dfaRun .q0 s := by
    simp [dfaRun, step_cont_m4a b2 h2, step_cont_m4b b3 h5]
  rw [← e3]
  rcases h1 with (⟨⟨h0, h3⟩, h4⟩ | ⟨⟨h0, h3⟩, h4⟩) | ⟨⟨h0, h3⟩, h4⟩
  · exact dfa_two b0 b1 _ .f0 .m4a (by rw [h0]; rfl) (by simp [step, h3, h4])
  · simp only [isCont, Bool.and_eq_true, decide_eq_true_eq] at h4
    exact dfa_two b0 b1 _ .f3 .m4a (step_q0_f3 b0 h0 h3) (by simp [step, h4])
  · exact dfa_two b0 b1 _ .f4 .m4a (by rw [h0]; rfl) (by simp [step, h3, h4])

theorem dfaRun_of_wellFormed (s : List Nat) (h : wellFormedUtf8 s = true) :
    dfaRun .q0 s = some .q0 := by
  generalize hn : s.length = n
  induction n using Nat.strong_induction_on generalizing s with
  | _ n ih =>
    cases s with
    | nil => rfl
    | cons b0 s =>
      rcases wf_elim b0 s h with ⟨h1, h2⟩ | ⟨b1, s1, rfl, h1, h2⟩ | ⟨b1, b2, s2, rfl, h1, h2⟩ |
          ⟨b1, b2, b3, s3, rfl, h1, h2⟩
      · simp only [dfaRun, step_q0_ascii b0 h1, Option.some_bind]
        exact ih s.length (by simp at hn; omega) s h2 rfl
      · rw [dfa_legal2 _ _ _ h1]
        exact ih s1.length (by simp at hn; omega) s1 h2 rfl
      · rw [dfa_legal3 _ _ _ _ h1]
        exact ih s2.length (by simp at hn; omega) s2 h2 rfl
      · rw [dfa_legal4 _ _ _ _ _ h1]
        exact ih s3.length (by simp at hn; omega) s3 h2 rfl

theorem isCont_iff (b : Nat) : isCont b = true ↔ 0x80 ≤ b ∧ b ≤ 0xBF := by
  simp [isCont]

theorem legal2_iff (b0 b1 : Nat) :
    legal2 b0 b1 = true ↔ (0xC2 ≤ b0 ∧ b0 ≤ 0xDF) ∧ (0x80 ≤ b1 ∧ b1 ≤ 0xBF) := by
  simp [legal2, isCont]

theorem legal3_iff (b0 b1 b2 : Nat) :
    legal3 b0 b1 b2 = true ↔
      ((b0 = 0xE0 ∧ 0xA0 ≤ b1 ∧ b1 ≤ 0xBF) ∨ (0xE1 ≤ b0 ∧ b0 ≤ 0xEC ∧ 0x80 ≤ b1 ∧ b1 ≤ 0xBF) ∨
       (b0 = 0xED ∧ 0x80 ≤ b1 ∧ b1 ≤ 0x9F) ∨ (0xEE ≤ b0 ∧ b0 ≤ 0xEF ∧ 0x80 ≤ b1 ∧ b1 ≤ 0xBF)) ∧
      (0x80 ≤ b2 ∧ b2 ≤ 0xBF) := by
  simp only [legal3, isCont, Bool.and_eq_true, Bool.or_eq_true, decide_eq_true_eq]
  tauto

theorem legal4_iff (b0 b1 b2 b3 : Nat) :
    legal4 b0 b1 b2 b3 = true ↔
      ((b0 = 0xF0 ∧ 0x90 ≤ b1 ∧ b1 ≤ 0xBF) ∨ (0xF1 ≤ b0 ∧ b0 ≤ 0xF3 ∧ 0x80 ≤ b1 ∧ b1 ≤ 0xBF) ∨
       (b0 = 0xF4 ∧ 0x80 ≤ b1 ∧ b1 ≤ 0x8F)) ∧
      (0x80 ≤ b2 ∧ b2 ≤ 0xBF) ∧ (0x80 ≤ b3 ∧ b3 ≤ 0xBF) := by
  simp only [legal4, isCont, Bool.and_eq_true, Bool.or_eq_true, decide_eq_true_eq]
  tauto

theorem dfa_cons (q q' : Q) (b : Nat) (s : List Nat) :
    dfaRun q (b :: s) = some q' ↔ ∃ q1, step q b = some q1 ∧ dfaRun q1 s = some q' := by
  simp only [dfaRun]
  cases step q b with
  | none => simp
  | some q1 => simp

theorem dfa_nonq0 (q : Q) (s : List Nat) (hq : q ≠ .q0) (h : dfaRun q s = some .q0) :
    ∃ b s1 q1, s = b :: s1 ∧ step q b = some q1 ∧ dfaRun q1 s1 = some .q0 := by
  cases s with
  | nil => simp [dfaRun] at h; exact absurd h hq
  | cons b s1 =>
    obtain ⟨q1, h1, h2⟩ := (dfa_cons q .q0 b s1).1 h
    exact ⟨b, s1, q1, rfl, h1, h2⟩

theorem step_q0_cases (q1 : Q) (b : Nat) (h : step .q0 b = some q1) :
    (b ≤ 0x7F ∧ q1 = .q0) ∨ (0xC0 ≤ b ∧ b ≤ 0xC1 ∧ q1 = .badC) ∨
      (0xC2 ≤ b ∧ b ≤ 0xDF ∧ q1 = .c2) ∨ (b = 0xE0 ∧ q1 = .e0) ∨ (b = 0xED ∧ q1 = .ed) ∨
      (0xE1 ≤ b ∧ b ≤ 0xEF ∧ b ≠ 0xED ∧ q1 = .e3) ∨ (b = 0xF0 ∧ q1 = .f0) ∨
      (0xF1 ≤ b ∧ b ≤ 0xF3 ∧ q1 = .f3) ∨ (b = 0xF4 ∧ q1 = .f4) := by
  unfold step at h
  dsimp only at h
  by_cases c1 : b ≤ 0x7F
  · rw [if_pos c1] at h; cases h
    simp only [and_true, reduceCtorEq, and_false, false_or, or_false]; omega
  rw [if_neg c1] at h
  by_cases c2 : b < 0xC0
  · rw [if_pos c2] at h; cases h
  rw [if_neg c2] at h
  by_cases c3 : b < 0xC2
  · rw [if_pos c3] at h; cases h
    simp only [and_true, reduceCtorEq, and_false, false_or, or_false]; omega
  rw [if_neg c3] at h
  by_cases c4 : b ≤ 0xDF
  · rw [if_pos c4] at h; cases h
    simp only [and_true, reduceCtorEq, and_false, false_or, or_false]; omega
  rw [if_neg c4] at h
  by_cases c5 : b = 0xE0
  · rw [if_pos c5] at h; cases h
    simp only [and_true, reduceCtorEq, and_false, false_or, or_false]; omega
  rw [if_neg c5] at h
  by_cases c6 : b = 0xED
  · rw [if_pos c6] at h; cases h
    simp only [and_true, reduceCtorEq, and_false, false_or, or_false]; omega
  rw [if_neg c6] at h
  by_cases c7 : b ≤ 0xEF
  · rw [if_pos c7] at h; cases h
    simp only [and_true, reduceCtorEq, and_false, false_or, or_false]; omega
  rw [if_neg c7] at h
  by_cases c8 : b = 0xF0
  · rw [if_pos c8] at h; cases h
    simp only [and_true, reduceCtorEq, and_false, false_or, or_false]; omega
  rw [if_neg c8] at h
  by_cases c9 : b ≤ 0xF3
  · rw [if_pos c9] at h; cases h
    simp only [and_true, reduceCtorEq, and_false, false_or, or_false]; omega
  rw [if_neg c9] at h
  by_cases c10 : b = 0xF4
  · rw [if_pos c10] at h; cases h
    simp only [and_true, reduceCtorEq, and_false, false_or, or_false]; omega
  rw [if_neg c10] at h
  cases h

theorem step_q0_none (b : Nat) (h : step .q0 b = none) : (0x80 ≤ b ∧ b < 0xC0) ∨ 0xF5 ≤ b := by
  unfold step at h
  dsimp only at h
  by_cases c1 : b ≤ 0x7F
  · rw [if_pos c1] at h; cases h
  rw [if_neg c1] at h
  by_cases c2 : b < 0xC0
  · omega
  rw [if_neg c2] at h
  by_cases c3 : b < 0xC2
  · rw [if_pos c3] at h; cases h
  rw [if_neg c3] at h
  by_cases c4 : b ≤ 0xDF
  · rw [if_pos c4] at h; cases h
  rw [if_neg c4] at h
  by_cases c5 : b = 0xE0
  · rw [if_pos c5] at h; cases h
  rw [if_neg c5] at h
  by_cases c6 : b = 0xED
  · rw [if_pos c6] at h; cases h
  rw [if_neg c6] at h
  by_cases c7 : b ≤ 0xEF
  · rw [if_pos c7] at h; cases h
  rw [if_neg c7] at h
  by_cases c8 : b = 0xF0
  · rw [if_pos c8] at h; cases h
  rw [if_neg c8] at h
  by_cases c9 : b ≤ 0xF3
  · rw [if_pos c9] at h; cases h
  rw [if_neg c9] at h
  by_cases c10 : b = 0xF4
  · rw [if_pos c10] at h; cases h
  omega

theorem step_mid (q : Q) (b : Nat) (hq : q ≠ .q0) :
    step q b = if (accepts q).1 ≤ b ∧ b ≤ (accepts q).2.1 then some (accepts q).2.2 else none := by
  cases q <;> first | exact absurd rfl hq | rfl | skip
  simp only [step, accepts]
  rw [if_neg (by omega)]

theorem step_mid_some (q q1 : Q) (b : Nat) (hq : q ≠ .q0) (h : step q b = some q1) :
    (accepts q).1 ≤ b ∧ b ≤ (accepts q).2.1 ∧ q1 = (accepts q).2.2 := by
  rw [step_mid q b hq] at h
  by_cases c : (accepts q).1 ≤ b ∧ b ≤ (accepts q).2.1
  · rw [if_pos c] at h; cases h; exact ⟨c.1, c.2, rfl⟩
  · rw [if_neg c] at h; cases h

theorem step_mid_none (q : Q) (b : Nat) (hq : q ≠ .q0) (h : step q b = none) :
    ¬ ((accepts q).1 ≤ b ∧ b ≤ (accepts q).2.1) := by
  rw [step_mid q b hq] at h
  intro c
  rw [if_pos c] at h; cases h

/-- A run out of a state that awaits exactly one more continuation byte. -/
theorem dfa_last (q : Q) (s : List Nat) (hq : q = .c2 ∨ q = .m3 ∨ q = .m4b)
    (h : dfaRun q s = some .q0) :
    ∃ b s1, s = b :: s1 ∧ (0x80 ≤ b ∧ b ≤ 0xBF) ∧ dfaRun .q0 s1 = some .q0 := by
  obtain ⟨b, s1, q1, rfl, h1, h2⟩ := dfa_nonq0 q s (by rcases hq with rfl | rfl | rfl <;> decide) h
  have := step_mid_some q q1 b (by rcases hq with rfl | rfl | rfl <;> decide) h1
  rcases hq with rfl | rfl | rfl <;> obtain ⟨h3, h4, rfl⟩ := this <;>
    exact ⟨b, s1, rfl, ⟨h3, h4⟩, h2⟩

theorem wellFormed_of_dfaRun (s : List Nat) (h : dfaRun .q0 s = some .q0) :
    wellFormedUtf8 s = true := by
  generalize hn : s.length = n
  induction n using Nat.strong_induction_on generalizing s with
  | _ n ih =>
    cases s with
    | nil => rfl
    | cons b0 s =>
      obtain ⟨q1, h1, h2⟩ := (dfa_cons _ _ _ _).1 h
      have hc := step_q0_cases q1 b0 h1
      simp only [List.length_cons] at hn
      rcases hc with ⟨hb, rfl⟩ | ⟨_, _, rfl⟩ | ⟨hb1, hb2, rfl⟩ | ⟨hb, rfl⟩ | ⟨hb, rfl⟩ |
        ⟨hb1, hb2, hb3, rfl⟩ | ⟨hb, rfl⟩ | ⟨hb1, hb2, rfl⟩ | ⟨hb, rfl⟩
      · exact wf_ascii b0 s hb (ih s.length (by omega) s h2 rfl)
      · obtain ⟨b, s1, q2, _, h3, _⟩ := dfa_nonq0 _ _ (by decide) h2
        exact absurd h3 (by simp [step])
      · obtain ⟨b1, s1, rfl, hb, h3⟩ := dfa_last _ _ (Or.inl rfl) h2
        simp only [List.length_cons] at hn
        exact wf_two b0 b1 s1 ((legal2_iff _ _).2 ⟨⟨hb1, hb2⟩, hb⟩)
          (ih s1.length (by omega) s1 h3 rfl)
      all_goals
        obtain ⟨b1, s1, q2, rfl, h3, h4⟩ := dfa_nonq0 _ _ (by decide) h2
        obtain ⟨hc1, hc2, rfl⟩ := step_mid_some _ q2 b1 (by decide) h3
        simp only [accepts] at hc1 hc2 h4
        simp only [List.length_cons] at hn
      · obtain ⟨b2, s2, rfl, hb2, h5⟩ := dfa_last _ _ (Or.inr (Or.inl rfl)) h4
        simp only [List.length_cons] at hn
        exact wf_three b0 b1 b2 s2 ((legal3_iff _ _ _).2 (by omega))
          (ih s2.length (by omega) s2 h5 rfl)
      · obtain ⟨b2, s2, rfl, hb2, h5⟩ := dfa_last _ _ (Or.inr (Or.inl rfl)) h4
        simp only [List.length_cons] at hn
        exact wf_three b0 b1 b2 s2 ((legal3_iff _ _ _).2 (by omega))
          (ih s2.length (by omega) s2 h5 rfl)
      · obtain ⟨b2, s2, rfl, hb2, h5⟩ := dfa_last _ _ (Or.inr (Or.inl rfl)) h4
        simp only [List.length_cons] at hn
        exact wf_three b0 b1 b2 s2 ((legal3_iff _ _ _).2 (by omega))
          (ih s2.length (by omega) s2 h5 rfl)
      all_goals
        obtain ⟨b2, s2, q3, rfl, h5, h6⟩ := dfa_nonq0 _ _ (by decide) h4
        obtain ⟨hc3, hc4, rfl⟩ := step_mid_some _ q3 b2 (by decide) h5
        simp only [accepts] at hc3 hc4 h6
        obtain ⟨b3, s3, rfl, hb3, h7⟩ := dfa_last _ _ (Or.inr (Or.inr rfl)) h6
        simp only [List.length_cons] at hn
        exact wf_four b0 b1 b2 b3 s3 ((legal4_iff _ _ _ _).2 (by omega))
          (ih s3.length (by omega) s3 h7 rfl)

theorem wellFormed_iff_dfaRun (s : List Nat) :
    wellFormedUtf8 s = true ↔ dfaRun .q0 s = some .q0 :=
  ⟨dfaRun_of_wellFormed s, wellFormed_of_dfaRun s⟩

/-! ## The lane invariant is kept by accepted bytes and broken by rejected ones -/

theorem lenN_ascii (b : Nat) (h : b < 0x80) : lenN b = 1 := by
  unfold lenN; rw [if_pos h]

theorem lenN_cont (b : Nat) (h1 : 0x80 ≤ b) (h2 : b < 0xC0) : lenN b = 0 := by
  unfold lenN; rw [if_neg (by omega), if_pos h2]

theorem lenN_two (b : Nat) (h1 : 0xC0 ≤ b) (h2 : b < 0xE0) : lenN b = 2 := by
  unfold lenN; rw [if_neg (by omega), if_neg (by omega), if_pos h2]

theorem lenN_three (b : Nat) (h1 : 0xE0 ≤ b) (h2 : b < 0xF0) : lenN b = 3 := by
  unfold lenN; rw [if_neg (by omega), if_neg (by omega), if_neg (by omega), if_pos h2]

theorem lenN_four (b : Nat) (h1 : 0xF0 ≤ b) : lenN b = 4 := by
  unfold lenN; rw [if_neg (by omega), if_neg (by omega), if_neg (by omega), if_neg (by omega)]

theorem lenN_le (b : Nat) : lenN b ≤ 4 := by
  unfold lenN; split_ifs <;> omega

theorem K_step_sound_q0 (i : Nat) (q1 : Q) (s : LaneSt) (b : Nat)
    (hK : K i .q0 s) (hs : step .q0 b = some q1) :
    laneOkN s b ∧ K (i + 1) q1 (laneStepN s b) := by
  obtain ⟨A, B, C, P, H, D, E⟩ := s
  simp only [K] at hK
  obtain ⟨k1, k2, k3, k4, k5, k6, k7, k8⟩ := hK
  rcases step_q0_cases q1 b hs with ⟨hb, rfl⟩ | ⟨hb1, hb2, rfl⟩ | ⟨hb1, hb2, rfl⟩ | ⟨hb, rfl⟩ |
      ⟨hb, rfl⟩ | ⟨hb1, hb2, hb3, rfl⟩ | ⟨hb, rfl⟩ | ⟨hb1, hb2, rfl⟩ | ⟨hb, rfl⟩
  · simp only [K, laneOkN, laneStepN, lenN_ascii b (by omega)]
    and_intros <;> first | trivial | omega
  · simp only [K, laneOkN, laneStepN, lenN_two b (by omega) (by omega)]
    and_intros <;> first | trivial | omega
  · simp only [K, laneOkN, laneStepN, lenN_two b (by omega) (by omega)]
    and_intros <;> first | trivial | omega
  · simp only [K, laneOkN, laneStepN, lenN_three b (by omega) (by omega)]
    and_intros <;> first | trivial | omega
  · simp only [K, laneOkN, laneStepN, lenN_three b (by omega) (by omega)]
    and_intros <;> first | trivial | omega
  · simp only [K, laneOkN, laneStepN, lenN_three b (by omega) (by omega)]
    and_intros <;> first | trivial | omega
  · simp only [K, laneOkN, laneStepN, lenN_four b (by omega)]
    and_intros <;> first | trivial | omega
  · simp only [K, laneOkN, laneStepN, lenN_four b (by omega)]
    and_intros <;> first | trivial | omega
  · simp only [K, laneOkN, laneStepN, lenN_four b (by omega)]
    and_intros <;> first | trivial | omega

theorem K_step_sound_mid (i : Nat) (q q1 : Q) (s : LaneSt) (b : Nat) (hq : q ≠ .q0)
    (hK : K i q s) (hs : step q b = some q1) :
    laneOkN s b ∧ K (i + 1) q1 (laneStepN s b) := by
  obtain ⟨A, B, C, P, H, D, E⟩ := s
  obtain ⟨h1, h2, rfl⟩ := step_mid_some q q1 b hq hs
  cases q <;> first | exact absurd rfl hq | skip
  all_goals
    simp only [accepts] at h1 h2 ⊢
    simp only [K] at hK
    simp only [K, laneOkN, laneStepN, lenN_cont b (by omega) (by omega)]
    and_intros <;> first | trivial | omega | (intro _; trivial)

theorem K_step_sound (i : Nat) (q q1 : Q) (s : LaneSt) (b : Nat)
    (hK : K i q s) (hs : step q b = some q1) :
    laneOkN s b ∧ K (i + 1) q1 (laneStepN s b) := by
  by_cases hq : q = .q0
  · subst hq; exact K_step_sound_q0 i q1 s b hK hs
  · exact K_step_sound_mid i q q1 s b hq hK hs

theorem K_step_complete (i : Nat) (q : Q) (s : LaneSt) (b : Nat)
    (hK : K i q s) (hb : b < 256) (hs : step q b = none) : ¬ laneOkN s b := by
  obtain ⟨A, B, C, P, H, D, E⟩ := s
  have hl := lenN_le b
  by_cases hq : q = .q0
  · subst hq
    simp only [K] at hK
    rcases step_q0_none b hs with ⟨h1, h2⟩ | h1
    · simp only [laneOkN, lenN_cont b h1 h2]
      omega
    · simp only [laneOkN]
      omega
  · have hn := step_mid_none q b hq hs
    by_cases hc : 0x80 ≤ b ∧ b < 0xC0
    · have hl0 := lenN_cont b hc.1 hc.2
      cases q <;> first | exact absurd rfl hq | skip
      all_goals
        simp only [accepts] at hn
        simp only [K] at hK
        simp only [laneOkN, hl0]
        omega
    · have hl1 : 1 ≤ lenN b := by
        unfold lenN; split_ifs <;> omega
      simp only [laneOkN]
      generalize lenN b = n at hl hl1 ⊢
      cases q <;> first | exact absurd rfl hq | skip
      all_goals
        simp only [accepts] at hn
        simp only [K] at hK
        omega

/-- Bounds that the invariant gives in every state. -/
theorem K_bounds (i : Nat) (q : Q) (s : LaneSt) (hK : K i q s) :
    s.A ≤ 4 ∧ s.B ≤ 4 ∧ s.C ≤ 4 ∧ s.P < 256 ∧ s.H < 16 ∧ s.D ≤ 4 := by
  cases q <;> simp only [K] at hK <;> omega

/-- At the end of a window the lookback of the next window satisfies the invariant again. -/
theorem K_reseed (i : Nat) (q : Q) (s : LaneSt) (hi : 3 ≤ i) (hK : K i q s) :
    K 0 q { A := s.D, B := s.E, C := s.D, P := s.P, H := s.H, D := s.D, E := s.E } := by
  cases q <;> simp only [K] at hK ⊢ <;> omega

/-- Outside `q0` the carried length of the last byte is at least two. -/
theorem K_mid_D (i : Nat) (q : Q) (s : LaneSt) (hi : i ≠ 1) (hq : q ≠ .q0) (hK : K i q s) :
    2 ≤ s.D := by
  cases q <;> first | exact absurd rfl hq | (simp only [K] at hK; omega)

/-! ## Arithmetic of single lanes -/

theorem Nat_or_eq_zero (a b : Nat) : a ||| b = 0 ↔ a = 0 ∧ b = 0 := by
  constructor
  · intro h
    have h1 : ∀ i, a.testBit i = false ∧ b.testBit i = false := by
      intro i
      have := congrArg (fun x => x.testBit i) h
      simpa using this
    exact ⟨Nat.eq_of_testBit_eq (fun i => by simp [(h1 i).1]),
      Nat.eq_of_testBit_eq (fun i => by simp [(h1 i).2])⟩
  · rintro ⟨rfl, rfl⟩; rfl

theorem mask_and_eq_zero (p q : Prop) [Decidable p] [Decidable q] :
    ((if p then 0xFF else 0) &&& (if q then 0xFF else 0) : Nat) = 0 ↔ ¬ (p ∧ q) := by
  by_cases hp : p <;> by_cases hq : q <;> simp [hp, hq]

theorem mask_eq_zero (p : Prop) [Decidable p] : ((if p then 0xFF else 0) : Nat) = 0 ↔ ¬ p := by
  by_cases hp : p <;> simp [hp]

theorem nibbles_lookup : ∀ h, h < 16 → lane (vld1q _nibbles) h =
    if h < 8 then 1 else if h < 12 then 0 else if h < 14 then 2 else if h < 15 then 3 else 4 := by
  decide

theorem initial_mins_lookup : ∀ h, h < 16 → lane (vld1q _initial_mins) h =
    if h = 12 then 0xC2 else if h = 14 then 0xE1 else if h = 15 then 0xF1 else 0x80 := by
  decide

theorem second_mins_lookup : ∀ h, h < 16 → lane (vld1q _second_mins) h =
    if h < 12 then 0x80 else if h < 14 then 0x7F else if h = 14 then 0xA0 else 0x90 := by
  decide

theorem lenOf_eq (b : Nat) (hb : b < 256) : lenOf b = lenN b := by
  have h16 : b >>> 4 < 16 := by rw [Nat.shiftRight_eq_div_pow]; omega
  unfold lenOf lenN
  rw [if_pos h16, nibbles_lookup _ h16, Nat.shiftRight_eq_div_pow]
  split_ifs <;> omega

theorem laneStep_eq (s : LaneSt) (b : Nat) (hb : b < 256) (hA : s.A ≤ 4) (hB : s.B ≤ 4) :
    laneStep s b = laneStepN s b := by
  have hl := lenN_le b
  simp only [laneStep, laneStepN, lenOf_eq b hb, Nat.shiftRight_eq_div_pow]
  have e1 : (lenN b + (s.A - 1)) % 256 = lenN b + (s.A - 1) := by omega
  rw [e1]
  have e2 : (lenN b + (s.A - 1) + (s.B - 2)) % 256 = lenN b + (s.A - 1) + (s.B - 2) := by omega
  rw [e2]

theorem toS8_cases (x : Nat) (hx : x < 256) :
    (x < 128 ∧ toS8 x = x) ∨ (128 ≤ x ∧ toS8 x = (x : Int) - 256) := by
  unfold toS8
  by_cases h : x < 128
  · rw [if_pos h]; exact Or.inl ⟨h, rfl⟩
  · rw [if_neg h]; exact Or.inr ⟨by omega, rfl⟩

theorem toS8_gt_small (x y : Nat) (hx : x < 128) (hy : y < 128) : toS8 x > toS8 y ↔ x > y := by
  unfold toS8; rw [if_pos hx, if_pos hy]; omega

theorem toS8_gt_9F (b : Nat) (hb : b < 256) : toS8 b > toS8 0x9F ↔ (b < 0x80 ∨ 0xA0 ≤ b) := by
  have c : toS8 0x9F = -97 := by decide
  rw [c]
  rcases toS8_cases b hb with ⟨h1, h2⟩ | ⟨h1, h2⟩ <;> rw [h2] <;> omega

theorem toS8_gt_8F (b : Nat) (hb : b < 256) : toS8 b > toS8 0x8F ↔ (b < 0x80 ∨ 0x90 ≤ b) := by
  have c : toS8 0x8F = -113 := by decide
  rw [c]
  rcases toS8_cases b hb with ⟨h1, h2⟩ | ⟨h1, h2⟩ <;> rw [h2] <;> omega

theorem mask_eq_mask (p q : Prop) [Decidable p] [Decidable q] :
    ((if p then 0xFF else 0 : Nat) = if q then 0xFF else 0) ↔ (p ↔ q) := by
  by_cases hp : p <;> by_cases hq : q <;> simp [hp, hq]

theorem overlong_iff (H P b : Nat) (hH : H < 16) (hP : P < 256) (hb : b < 256) :
    (toS8 (iminOf H) > toS8 P ∧ toS8 (sminOf H) > toS8 b) ↔
    ((H = 12 ∧ 0x80 ≤ P ∧ P < 0xC2 ∧ b ≠ 0x7F) ∨
     (H = 14 ∧ 0x80 ≤ P ∧ P < 0xE1 ∧ 0x80 ≤ b ∧ b < 0xA0) ∨
     (H = 15 ∧ 0x80 ≤ P ∧ P < 0xF1 ∧ 0x80 ≤ b ∧ b < 0x90)) := by
  have hP1 := toS8_cases P hP
  have hb1 := toS8_cases b hb
  generalize toS8 P = p at hP1 ⊢
  generalize toS8 b = c at hb1 ⊢
  by_cases h12 : H = 12
  · subst h12
    have e1 : toS8 (iminOf 12) = -62 := by decide
    have e2 : toS8 (sminOf 12) = 127 := by decide
    rw [e1, e2]; omega
  by_cases h14 : H = 14
  · subst h14
    have e1 : toS8 (iminOf 14) = -31 := by decide
    have e2 : toS8 (sminOf 14) = -96 := by decide
    rw [e1, e2]; omega
  by_cases h15 : H = 15
  · subst h15
    have e1 : toS8 (iminOf 15) = -15 := by decide
    have e2 : toS8 (sminOf 15) = -112 := by decide
    rw [e1, e2]; omega
  · have e1 : toS8 (iminOf H) = -128 := by
      unfold iminOf
      rw [if_pos hH, initial_mins_lookup H hH, if_neg h12, if_neg h14, if_neg h15]
      decide
    rw [e1]; omega

theorem laneErr_eq_zero_iff (s : LaneSt) (b : Nat) (hb : b < 256) (hA : s.A ≤ 4) (hB : s.B ≤ 4)
    (hP : s.P < 256) (hH : s.H < 16) : laneErr s b = 0 ↔ laneOkN s b := by
  have hl := lenN_le b
  unfold laneErr laneOkN
  rw [lenOf_eq b hb]
  have e1 : (lenN b + (s.A - 1)) % 256 = lenN b + (s.A - 1) := by omega
  have e2 : (lenN b + (s.A - 1) + (s.B - 2)) % 256 = lenN b + (s.A - 1) + (s.B - 2) := by omega
  rw [e1, e2]
  simp only [Nat_or_eq_zero, mask_and_eq_zero, mask_eq_zero, mask_eq_mask, toS8_gt_9F b hb,
    toS8_gt_8F b hb, overlong_iff s.H s.P b hH hP hb,
    toS8_gt_small _ _ (by omega : lenN b + (s.A - 1) + (s.B - 2) < 128) (by omega : lenN b < 128),
    toS8_gt_small _ _ (by omega : lenN b < 128) (by decide : 0 < 128)]
  constructor
  · rintro ⟨⟨⟨h1, h2⟩, h3, h4⟩, h5⟩
    exact ⟨by omega, h2, fun h => h3 ⟨h.2, h.1⟩, fun h => h4 ⟨h.2, h.1⟩, h5⟩
  · rintro ⟨h1, h2, h3, h4, h5⟩
    exact ⟨⟨⟨by omega, h2⟩, fun h => h3 ⟨h.2, h.1⟩, fun h => h4 ⟨h.2, h.1⟩⟩, h5⟩

open utf8_checker

/-! ## Lanes of the registers computed by `check_utf8_bytes` -/

theorem lane_lt (v : V16) (i : Nat) (h : i < 16) : lane v i = v ⟨i, h⟩ := by
  unfold lane; rw [dif_pos h]

theorem lane_val (v : V16) (i : Fin 16) : lane v i.val = v i := by
  rw [lane_lt v i.val i.isLt]

theorem vext15_apply (a b : V16) (i : Fin 16) :
    vextq_s8 a b (16 - 1) i = if i.val = 0 then lane a 15 else lane b (i.val - 1) := by
  unfold vextq_s8
  by_cases h : i.val = 0
  · rw [if_pos h, if_pos (by omega), h]
  · rw [if_neg h, if_neg (by omega)]
    congr 1

theorem vext14_apply (a b : V16) (i : Fin 16) :
    vextq_s8 a b (16 - 2) i =
      if i.val = 0 then lane a 14 else if i.val = 1 then lane a 15 else lane b (i.val - 2) := by
  unfold vextq_s8
  by_cases h : i.val = 0
  · rw [if_pos h, if_pos (by omega), h]
  · by_cases h1 : i.val = 1
    · rw [if_neg h, if_pos h1, if_pos (by omega), h1]
    · rw [if_neg h, if_neg h1, if_neg (by omega)]
      congr 1

theorem init_apply (w : V16) (i : Fin 16) :
    continuation_lengths (vshrq_n_u8 w 4) i = lenOf (w i) := rfl

theorem carry_sum_apply (st : utf8_checker) (init : V16) (i : Fin 16) :
    carry_sum st init i =
      (init i + ((if i.val = 0 then lane st.previous.carried_continuations 15
        else lane init (i.val - 1)) - 1)) % 256 := by
  rw [← vext15_apply]; rfl

theorem carry_apply (st : utf8_checker) (init : V16) (i : Fin 16) :
    carry_continuations st init i =
      (carry_sum st init i + ((if i.val = 0 then lane st.previous.carried_continuations 14
        else if i.val = 1 then lane st.previous.carried_continuations 15
        else lane (carry_sum st init) (i.val - 2)) - 2)) % 256 := by
  rw [← vext14_apply]; rfl

theorem lane_init (w : V16) (i : Nat) (hi : i < 16) :
    lane (continuation_lengths (vshrq_n_u8 w 4)) i = lenOf (lane w i) := by
  rw [lane_lt _ i hi, lane_lt _ i hi]; rfl

theorem lane_carry_sum (st : utf8_checker) (init : V16) (i : Nat) (hi : i < 16) :
    lane (carry_sum st init) i =
      (lane init i + ((if i = 0 then lane st.previous.carried_continuations 15
        else lane init (i - 1)) - 1)) % 256 := by
  rw [lane_lt _ i hi, lane_lt _ i hi]
  exact carry_sum_apply st init ⟨i, hi⟩

theorem lane_carry (st : utf8_checker) (init : V16) (i : Nat) (hi : i < 16) :
    lane (carry_continuations st init) i =
      (lane (carry_sum st init) i + ((if i = 0 then lane st.previous.carried_continuations 14
        else if i = 1 then lane st.previous.carried_continuations 15
        else lane (carry_sum st init) (i - 2)) - 2)) % 256 := by
  rw [lane_lt _ i hi, lane_lt _ i hi]
  exact carry_apply st init ⟨i, hi⟩

theorem laneCtx_succ (st : utf8_checker) (w : V16) (i : Nat) (hi : i < 16) :
    laneCtx st w (i + 1) = laneStep (laneCtx st w i) (lane w i) := by
  have e0 := lane_init w i hi
  have e1 := lane_carry_sum st (continuation_lengths (vshrq_n_u8 w 4)) i hi
  have e2 := lane_carry st (continuation_lengths (vshrq_n_u8 w 4)) i hi
  rw [e1] at e2
  rw [e0] at e1 e2
  unfold laneCtx laneStep
  simp only [Nat.add_sub_cancel, Nat.succ_ne_zero, if_false, e0, e1, e2, LaneSt.mk.injEq, true_and,
    and_true]
  refine ⟨?_, ?_⟩
  · by_cases h : i = 0
    · subst h; simp
    · have : i + 1 - 2 = i - 1 := by omega
      simp [h, this]
  · by_cases h : i = 0
    · subst h; simp
    · have : i + 1 - 2 = i - 1 := by omega
      simp [h, this]

theorem laneRun_eq (st : utf8_checker) (w : V16) (i : Nat) (hi : i ≤ 16) :
    laneRun st w i = laneCtx st w i := by
  induction i with
  | zero => rfl
  | succ i ih => rw [laneRun, ih (by omega), laneCtx_succ st w i (by omega)]

theorem carry_congr (st : utf8_checker) (h : V16) (init : V16) :
    carry_continuations { has_error := h, previous := st.previous } init =
      carry_continuations st init := rfl

theorem has_error_unfold (st : utf8_checker) (w : V16) :
    (check_utf8_bytes st w).has_error =
      vorrq (vorrq (vorrq (vqsubq_u8 w (vdupq_n 0xF4))
        (vceqq (vcgtq_s8 (carry_continuations st (continuation_lengths (vshrq_n_u8 w 4)))
            (continuation_lengths (vshrq_n_u8 w 4)))
          (vcgtq_s8 (continuation_lengths (vshrq_n_u8 w 4)) (vdupq_n 0))))
        (vorrq
          (vandq (vcgtq_s8 w (vdupq_n 0x9F))
            (vceqq (vextq_s8 st.previous.raw_bytes w (16 - 1)) (vdupq_n 0xED)))
          (vandq (vcgtq_s8 w (vdupq_n 0x8F))
            (vceqq (vextq_s8 st.previous.raw_bytes w (16 - 1)) (vdupq_n 0xF4)))))
        (vandq
          (vcgtq_s8 (vqtbl1q_s8 (vld1q _initial_mins)
              (vextq_s8 st.previous.high_nibbles (vshrq_n_u8 w 4) (16 - 1)))
            (vextq_s8 st.previous.raw_bytes w (16 - 1)))
          (vcgtq_s8 (vqtbl1q_s8 (vld1q _second_mins)
              (vextq_s8 st.previous.high_nibbles (vshrq_n_u8 w 4) (16 - 1))) w)) := by
  simp only [check_utf8_bytes, count_nibbles, check_overlong, check_first_continuation_max,
    check_continuations, check_smaller_than_0xF4, add_errors, carry_congr]

theorem lane_vshr (w : V16) (j : Nat) : lane (vshrq_n_u8 w 4) j = lane w j >>> 4 := by
  unfold lane
  by_cases h : j < 16
  · rw [dif_pos h, dif_pos h]; rfl
  · rw [dif_neg h, dif_neg h]; rfl

theorem nibble_ctx (st : utf8_checker) (w : V16) (i : Fin 16) :
    vextq_s8 st.previous.high_nibbles (vshrq_n_u8 w 4) (16 - 1) i =
      if i.val = 0 then lane st.previous.high_nibbles 15 else lane w (i.val - 1) >>> 4 := by
  rw [vext15_apply]
  by_cases h : i.val = 0
  · rw [if_pos h, if_pos h]
  · rw [if_neg h, if_neg h, lane_lt _ _ (by omega), lane_lt _ _ (by omega)]; rfl

theorem check_utf8_bytes_has_error (st : utf8_checker) (w : V16) (i : Fin 16) :
    (check_utf8_bytes st w).has_error i = laneErr (laneRun st w i.val) (w i) := by
  rw [laneRun_eq st w i.val (by omega), has_error_unfold]
  simp only [vorrq, vandq, vceqq, vcgtq_s8, vqsubq_u8, vdupq_n, vqtbl1q_s8, lane_vshr,
    carry_apply, carry_sum_apply, init_apply, vext15_apply]
  unfold laneErr laneCtx iminOf sminOf
  simp only [Nat.reduceMod]

theorem check_utf8_bytes_previous (st : utf8_checker) (w : V16) :
    (check_utf8_bytes st w).previous =
      { raw_bytes := w, high_nibbles := vshrq_n_u8 w 4,
        carried_continuations := carry_continuations st (continuation_lengths (vshrq_n_u8 w 4)) } := by
  simp only [check_utf8_bytes, count_nibbles, check_overlong, check_first_continuation_max,
    check_continuations, check_smaller_than_0xF4, add_errors, carry_congr]

theorem check_utf8_bytes_carried (st : utf8_checker) (w : V16) (i : Fin 16) :
    (check_utf8_bytes st w).previous.carried_continuations i = (laneRun st w (i.val + 1)).D := by
  rw [laneRun_eq st w (i.val + 1) (by omega), check_utf8_bytes_previous]
  unfold laneCtx
  simp only [Nat.add_sub_cancel, Nat.succ_ne_zero, if_false]
  rw [lane_val]

/-- The lookback that the next window reads is the reseeded context of lane 16. -/
theorem seed_check_utf8_bytes (st : utf8_checker) (w : V16) :
    seed (check_utf8_bytes st w) =
      { A := (laneRun st w 16).D, B := (laneRun st w 16).E, C := (laneRun st w 16).D,
        P := (laneRun st w 16).P, H := (laneRun st w 16).H, D := (laneRun st w 16).D,
        E := (laneRun st w 16).E } := by
  rw [laneRun_eq st w 16 (le_refl _), seed, check_utf8_bytes_previous]
  unfold laneCtx
  simp only [Nat.reduceEqDiff, if_false, Nat.reduceSub, OfNat.ofNat_ne_zero, OfNat.ofNat_ne_one,
    LaneSt.mk.injEq, true_and, and_true]
  exact lane_vshr w 15

/-! ## One window: lanes of `check_utf8_bytes` against the automaton -/

theorem step_some_lt (q q1 : Q) (b : Nat) (h : step q b = some q1) : b < 256 := by
  by_cases hq : q = .q0
  · subst hq
    have := step_q0_cases q1 b h
    omega
  · obtain ⟨h1, h2, _⟩ := step_mid_some q q1 b hq h
    cases q <;> simp only [accepts] at h1 h2 <;> omega

theorem dfaRun_snoc (q q2 : Q) (l : List Nat) (b : Nat) :
    dfaRun q (l ++ [b]) = some q2 ↔ ∃ q1, dfaRun q l = some q1 ∧ step q1 b = some q2 := by
  rw [dfaRun_append]
  cases h : dfaRun q l with
  | none => simp
  | some q1 =>
    simp only [Option.some_bind, dfaRun, Option.some.injEq, exists_eq_left']
    cases step q1 b <;> simp

theorem lanes_sound (st : utf8_checker) (w : V16) (q : Q) (hK : K 0 q (seed st)) (i : Nat)
    (hi : i ≤ 16) (q1 : Q) (h : dfaRun q ((List.range i).map (lane w)) = some q1) :
    K i q1 (laneRun st w i) ∧ ∀ j, j < i →
      laneErr (laneRun st w j) (lane w j) = 0 ∧ (laneRun st w (j + 1)).D ≤ 4 := by
  induction i generalizing q1 with
  | zero =>
    simp only [List.range_zero, List.map_nil, dfaRun, Option.some.injEq] at h
    subst h
    exact ⟨hK, fun j hj => absurd hj (Nat.not_lt_zero j)⟩
  | succ i ih =>
    rw [List.range_succ, List.map_append, List.map_singleton] at h
    obtain ⟨qm, h0, h1⟩ := (dfaRun_snoc _ _ _ _).1 h
    obtain ⟨hK0, herr⟩ := ih (by omega) qm h0
    have hb := step_some_lt _ _ _ h1
    obtain ⟨bA, bB, _, bP, bH, _⟩ := K_bounds _ _ _ hK0
    obtain ⟨hok, hK1⟩ := K_step_sound i qm q1 _ _ hK0 h1
    have hK2 : K (i + 1) q1 (laneRun st w (i + 1)) := by
      rw [laneRun, laneStep_eq _ _ hb bA bB]; exact hK1
    refine ⟨hK2, ?_⟩
    intro j hj
    by_cases hji : j = i
    · subst hji
      exact ⟨(laneErr_eq_zero_iff _ _ hb bA bB bP bH).2 hok, (K_bounds _ _ _ hK2).2.2.2.2.2⟩
    · exact herr j (by omega)

theorem lanes_complete (st : utf8_checker) (w : V16) (hw : w.isBytes) (q : Q)
    (hK : K 0 q (seed st)) (i : Nat) (hi : i ≤ 16)
    (herr : ∀ j, j < i → laneErr (laneRun st w j) (lane w j) = 0) :
    ∃ q1, dfaRun q ((List.range i).map (lane w)) = some q1 ∧ K i q1 (laneRun st w i) := by
  induction i with
  | zero => exact ⟨q, rfl, hK⟩
  | succ i ih =>
    obtain ⟨qm, h0, hK0⟩ := ih (by omega) (fun j hj => herr j (by omega))
    have hb : lane w i < 256 := by rw [lane_lt _ i (by omega)]; exact hw _
    obtain ⟨bA, bB, _, bP, bH, _⟩ := K_bounds _ _ _ hK0
    have hok := (laneErr_eq_zero_iff _ _ hb bA bB bP bH).1 (herr i (by omega))
    cases h1 : step qm (lane w i) with
    | none => exact absurd hok (K_step_complete i qm _ _ hK0 hb h1)
    | some q1 =>
      refine ⟨q1, ?_, ?_⟩
      · rw [List.range_succ, List.map_append, List.map_singleton]
        exact (dfaRun_snoc _ _ _ _).2 ⟨qm, h0, h1⟩
      · rw [laneRun, laneStep_eq _ _ hb bA bB]
        exact (K_step_sound i qm q1 _ _ hK0 h1).2

/-! ## The ASCII test and the tail check -/

theorem forall_lanes (v : V16) (P : Nat → Prop) :
    (∀ i : Fin 16, P (v i)) ↔ ∀ j, j < 16 → P (lane v j) := by
  constructor
  · intro h j hj; rw [lane_lt v j hj]; exact h _
  · intro h i; rw [← lane_val v i]; exact h _ i.isLt

theorem leU64_eq_zero (v : V16) (o : Nat) :
    leU64 v o = 0 ↔ ∀ j, j < 8 → lane v (o + j) = 0 := by
  unfold leU64
  constructor
  · intro h j hj
    interval_cases j <;> first | (rw [Nat.add_zero]; omega)
  · intro h
    have h0 := h 0 (by decide)
    have h1 := h 1 (by decide)
    have h2 := h 2 (by decide)
    have h3 := h 3 (by decide)
    have h4 := h 4 (by decide)
    have h5 := h 5 (by decide)
    have h6 := h 6 (by decide)
    have h7 := h 7 (by decide)
    rw [Nat.add_zero] at h0
    omega

/-- The narrowing reduction used by `check_ascii_neon` and `has_any_errors` is zero exactly
when every lane is zero. -/
theorem narrowed_eq_zero (v : V16) :
    vreinterpret_u64_u32 (vqmovn_u64 (vreinterpretq_u64 v)) = 0 ↔ ∀ i, v i = 0 := by
  rw [forall_lanes v (fun x => x = 0)]
  unfold vreinterpret_u64_u32 vqmovn_u64 vreinterpretq_u64
  simp only []
  have e0 := leU64_eq_zero v 0
  have e8 := leU64_eq_zero v 8
  constructor
  · intro h j hj
    have h0 : leU64 v 0 = 0 := by omega
    have h8 : leU64 v 8 = 0 := by omega
    by_cases hj8 : j < 8
    · have := e0.1 h0 j hj8
      rwa [Nat.zero_add] at this
    · have := e8.1 h8 (j - 8) (by omega)
      rwa [show 8 + (j - 8) = j by omega] at this
  · intro h
    have h0 : leU64 v 0 = 0 := e0.2 (fun j hj => h _ (by omega))
    have h8 : leU64 v 8 = 0 := e8.2 (fun j hj => h _ (by omega))
    rw [h0, h8]; rfl

set_option maxRecDepth 100000 in
theorem and_0x80_eq_zero : ∀ b, b < 256 → (b &&& 0x80 = 0 ↔ b < 0x80) := by
  decide

theorem check_ascii_neon_iff (w : V16) (hw : w.isBytes) :
    check_ascii_neon w = true ↔ ∀ i, w i < 0x80 := by
  unfold check_ascii_neon
  simp only [beq_iff_eq]
  rw [narrowed_eq_zero]
  constructor
  · intro h i
    exact (and_0x80_eq_zero (w i) (hw i)).1 (h i)
  · intro h i
    exact (and_0x80_eq_zero (w i) (hw i)).2 (h i)

theorem has_any_errors_iff (st : utf8_checker) :
    st.has_any_errors = true ↔ ∀ i, st.has_error i = 0 := by
  unfold has_any_errors
  simp only [beq_iff_eq]
  exact narrowed_eq_zero _

/-- Lane of the tail check. -/
theorem check_carried_has_error (st : utf8_checker) (i : Fin 16) :
    st.check_carried_continuations.has_error i =
      (st.has_error i ||| if toS8 (st.previous.carried_continuations i) >
        toS8 (if i.val = 15 then 1 else 9) then 0xFF else 0) := by
  unfold check_carried_continuations add_errors vorrq vcgtq_s8
  simp only []
  have : vld1q [9, 9, 9, 9, 9, 9, 9, 9, 9, 9, 9, 9, 9, 9, 9, 1] i = if i.val = 15 then 1 else 9 := by
    revert i; decide
  rw [this]

theorem check_carried_previous (st : utf8_checker) :
    st.check_carried_continuations.previous = st.previous := rfl

/-! ## Whole windows and whole runs -/

theorem dfaRun_bytes (q q1 : Q) (l : List Nat) (h : dfaRun q l = some q1) :
    ∀ b, b ∈ l → b < 256 := by
  induction l generalizing q with
  | nil => intro b hb; cases hb
  | cons a l ih =>
    obtain ⟨qm, h1, h2⟩ := (dfa_cons _ _ _ _).1 h
    intro b hb
    rcases List.mem_cons.1 hb with rfl | hb
    · exact step_some_lt _ _ _ h1
    · exact ih qm h2 b hb

theorem mem_toList (w : V16) (i : Fin 16) : w i ∈ w.toList := by
  unfold V16.toList
  rw [List.mem_map]
  exact ⟨i.val, List.mem_range.2 i.isLt, lane_val w i⟩

theorem mem_toList_iff (w : V16) (b : Nat) : b ∈ w.toList ↔ ∃ i, w i = b := by
  constructor
  · intro h
    unfold V16.toList at h
    obtain ⟨j, hj, rfl⟩ := List.mem_map.1 h
    exact ⟨⟨j, List.mem_range.1 hj⟩, (lane_lt w j _).symm⟩
  · rintro ⟨i, rfl⟩; exact mem_toList w i

theorem dfa_ascii_q0 (l : List Nat) (h : ∀ b, b ∈ l → b < 0x80) : dfaRun .q0 l = some .q0 := by
  induction l with
  | nil => rfl
  | cons a l ih =>
    have ha := h a (List.mem_cons_self _ _)
    rw [dfaRun, step_q0_ascii a (by omega)]
    exact ih (fun b hb => h b (List.mem_cons_of_mem _ hb))

theorem dfa_ascii (q q1 : Q) (a : Nat) (l : List Nat) (h : ∀ b, b ∈ a :: l → b < 0x80)
    (hr : dfaRun q (a :: l) = some q1) : q = .q0 ∧ q1 = .q0 := by
  have ha := h a (List.mem_cons_self _ _)
  obtain ⟨qm, h1, h2⟩ := (dfa_cons _ _ _ _).1 hr
  have hq : q = .q0 := by
    by_contra hq
    obtain ⟨h3, h4, _⟩ := step_mid_some q qm a hq h1
    cases q <;> simp only [accepts] at h3 h4 <;> omega
  subst hq
  rw [step_q0_ascii a (by omega)] at h1
  cases h1
  rw [dfa_ascii_q0 l (fun b hb => h b (List.mem_cons_of_mem _ hb))] at h2
  cases h2
  exact ⟨rfl, rfl⟩

theorem Inv_fresh : Inv utf8_checker.fresh .q0 := by
  refine ⟨fun i => rfl, fun i => ?_, ?_⟩
  · show 0 % 256 ≤ 4
    decide
  · simp only [K, seed, utf8_checker.fresh]
    decide

theorem toS8_le_of_le (x n : Nat) (hx : x ≤ n) (hn : n < 128) : ¬ toS8 x > toS8 n := by
  rw [toS8_gt_small x n (by omega) hn]; omega

/-- The tail check adds nothing when the last processed window ended between characters. -/
theorem tail_sound (st : utf8_checker) (hI : Inv st .q0) :
    ∀ i, st.check_carried_continuations.has_error i = 0 := by
  obtain ⟨h1, h2, h3⟩ := hI
  intro i
  rw [check_carried_has_error, h1 i, Nat.zero_or, mask_eq_zero]
  by_cases h : i.val = 15
  · rw [if_pos h]
    simp only [K, seed] at h3
    have h15 : st.previous.carried_continuations i ≤ 1 := by
      have := h3.2.2.2.2.2.2.1 (by decide)
      rw [lane_lt _ 15 (by decide)] at this
      have e : i = ⟨15, by decide⟩ := Fin.ext h
      rw [e]; exact this
    exact toS8_le_of_le _ 1 h15 (by decide)
  · rw [if_neg h]
    exact toS8_le_of_le _ 9 (le_trans (h2 i) (by decide)) (by decide)

theorem window_sound (st : utf8_checker) (w : V16) (q q1 : Q) (hI : Inv st q)
    (h : dfaRun q w.toList = some q1) : Inv (check_next_input st w) q1 := by
  have hw : w.isBytes := fun i => dfaRun_bytes q q1 _ h _ (mem_toList w i)
  unfold check_next_input
  by_cases ha : check_ascii_neon w = true
  · rw [if_pos ha]
    have hall := (check_ascii_neon_iff w hw).1 ha
    have hl : ∀ b, b ∈ w.toList → b < 0x80 := by
      intro b hb
      obtain ⟨i, rfl⟩ := (mem_toList_iff w b).1 hb
      exact hall i
    have hq : q = .q0 ∧ q1 = .q0 := dfa_ascii q q1 (lane w 0) _ hl h
    obtain ⟨rfl, rfl⟩ := hq
    exact ⟨tail_sound st hI, hI.2.1, hI.2.2⟩
  · rw [if_neg ha]
    obtain ⟨hK, hl⟩ := lanes_sound st w q hI.2.2 16 (le_refl _) q1 h
    refine ⟨?_, ?_, ?_⟩
    · intro i
      rw [check_utf8_bytes_has_error, ← lane_val w i]
      exact (hl i.val i.isLt).1
    · intro i
      rw [check_utf8_bytes_carried]
      exact (hl i.val i.isLt).2
    · rw [seed_check_utf8_bytes]
      exact K_reseed 16 q1 _ (by decide) hK

theorem feed_nil (st : utf8_checker) : feed st [] = st := by
  unfold feed
  rw [List.foldl_nil]

theorem feed_cons (st : utf8_checker) (w : V16) (ws : List V16) :
    feed st (w :: ws) = feed (check_next_input st w) ws := by
  unfold feed
  rw [List.foldl_cons]

theorem feed_sound (ws : List V16) (st : utf8_checker) (q q1 : Q) (hI : Inv st q)
    (h : dfaRun q (windowBytes ws) = some q1) : Inv (feed st ws) q1 := by
  induction ws generalizing st q with
  | nil =>
    simp only [windowBytes, dfaRun, Option.some.injEq] at h
    subst h
    exact hI
  | cons w ws ih =>
    rw [windowBytes, dfaRun_append] at h
    cases hw : dfaRun q w.toList with
    | none => rw [hw] at h; cases h
    | some qm =>
      rw [hw, Option.some_bind] at h
      rw [feed_cons]
      exact ih (check_next_input st w) qm (window_sound st w q qm hI hw) h

/-- Soundness of a full run over windows whose bytes are well-formed UTF-8. -/
theorem runWindows_sound (ws : List V16) (h : wellFormedUtf8 (windowBytes ws) = true) :
    ∀ i, (runWindows ws).has_error i = 0 :=
  tail_sound _ (feed_sound ws _ .q0 .q0 Inv_fresh (dfaRun_of_wellFormed _ h))

/-! ## Buffers: zero padding and windows -/

theorem toList_loadWindow (s : List Nat) :
    (loadWindow s).toList = s.take 16 ++ List.replicate (16 - s.length) 0 := by
  apply List.ext_getElem
  · simp only [V16.toList, List.length_map, List.length_range, List.length_append,
      List.length_take, List.length_replicate]
    omega
  · intro j h1 h2
    simp only [V16.toList, List.length_map, List.length_range] at h1
    simp only [V16.toList, List.getElem_map, List.getElem_range]
    rw [lane_lt _ j h1]
    show s.getD j 0 = _
    by_cases hj : j < s.length
    · rw [List.getElem_append_left (by simp only [List.length_take]; omega), List.getElem_take]
      rw [List.getD_eq_getElem?_getD, List.getElem?_eq_getElem hj]
      rfl
    · rw [List.getElem_append_right (by simp only [List.length_take]; omega),
        List.getElem_replicate]
      rw [List.getD_eq_getElem?_getD, List.getElem?_eq_none (by omega)]
      rfl

theorem windowBytes_windowsAux (n : Nat) (s : List Nat) (h : s.length ≤ 16 * n) :
    windowBytes (windowsAux n s) = s ++ List.replicate (16 * n - s.length) 0 := by
  induction n generalizing s with
  | zero =>
    have : s = [] := List.eq_nil_of_length_eq_zero (by omega)
    subst this; rfl
  | succ n ih =>
    rw [windowsAux, windowBytes, toList_loadWindow,
      ih (s.drop 16) (by rw [List.length_drop]; omega), List.length_drop]
    by_cases hl : s.length ≤ 16
    · rw [List.take_of_length_le hl, List.drop_of_length_le hl, List.nil_append,
        List.append_assoc, List.append_replicate_replicate]
      congr 2
      omega
    · rw [show 16 - s.length = 0 by omega, List.replicate_zero, List.append_nil,
        ← List.append_assoc, List.take_append_drop]
      congr 2
      omega

theorem windowBytes_windows (s : List Nat) :
    windowBytes (windows s) = s ++ List.replicate (16 * ((s.length + 15) / 16) - s.length) 0 :=
  windowBytes_windowsAux _ s (by omega)

theorem wellFormed_append_zeros (s : List Nat) (k : Nat) (h : wellFormedUtf8 s = true) :
    wellFormedUtf8 (s ++ List.replicate k 0) = true := by
  apply wellFormed_of_dfaRun
  rw [dfaRun_append, dfaRun_of_wellFormed s h, Option.some_bind]
  apply dfa_ascii_q0
  intro b hb
  rw [List.eq_of_mem_replicate hb]
  decide

theorem validate_sound (s : List Nat) (h : wellFormedUtf8 s = true) :
    ∀ i, (validate s).has_error i = 0 := by
  apply runWindows_sound
  rw [windowBytes_windows]
  exact wellFormed_append_zeros s _ h

/-! ## A single window: rejection of ill-formed input, truncation -/

theorem runWindows_single (w : V16) :
    runWindows [w] = (check_next_input utf8_checker.fresh w).check_carried_continuations := by
  unfold runWindows
  rw [feed_cons, feed_nil]

theorem toS8_gt_of_gt (x n : Nat) (hx : n < x) (hx4 : x ≤ 4) : toS8 x > toS8 n := by
  rw [toS8_gt_small x n (by omega) (by omega)]; omega

/-- When the tail check after one window leaves no error, the window is well-formed. -/
theorem window_complete (w : V16) (hw : w.isBytes)
    (h : ∀ i, (runWindows [w]).has_error i = 0) : wellFormedUtf8 w.toList = true := by
  rw [runWindows_single] at h
  apply wellFormed_of_dfaRun
  by_cases ha : check_ascii_neon w = true
  · have hall := (check_ascii_neon_iff w hw).1 ha
    apply dfa_ascii_q0
    intro b hb
    obtain ⟨i, rfl⟩ := (mem_toList_iff w b).1 hb
    exact hall i
  · unfold check_next_input at h
    rw [if_neg ha] at h
    have h1 : ∀ i : Fin 16, (check_utf8_bytes utf8_checker.fresh w).has_error i = 0 ∧
        ¬ toS8 ((check_utf8_bytes utf8_checker.fresh w).previous.carried_continuations i) >
          toS8 (if i.val = 15 then 1 else 9) := by
      intro i
      have := h i
      rw [check_carried_has_error, Nat_or_eq_zero, mask_eq_zero] at this
      exact this
    have herr : ∀ j, j < 16 →
        laneErr (laneRun utf8_checker.fresh w j) (lane w j) = 0 := by
      intro j hj
      have := (h1 ⟨j, hj⟩).1
      rw [check_utf8_bytes_has_error] at this
      rw [lane_lt w j hj]
      exact this
    obtain ⟨q1, hq1, hK⟩ := lanes_complete utf8_checker.fresh w hw .q0 Inv_fresh.2.2 16
      (le_refl _) herr
    have htail := (h1 ⟨15, by decide⟩).2
    rw [check_utf8_bytes_carried, if_pos rfl] at htail
    have hD4 := (K_bounds _ _ _ hK).2.2.2.2.2
    by_cases hq : q1 = .q0
    · rw [hq] at hq1; exact hq1
    · have hD2 := K_mid_D 16 q1 _ (by decide) hq hK
      exact absurd (toS8_gt_of_gt _ 1 (by omega) hD4) htail

/-- A proper, non-empty beginning of a legal multi-byte sequence of the table. -/
theorem dfa_incomplete_one (b0 : Nat) (h1 : 0xC2 ≤ b0) (h2 : b0 ≤ 0xF4) :
    ∃ q, step .q0 b0 = some q ∧ q ≠ .q0 := by
  cases h : step .q0 b0 with
  | none => have := step_q0_none b0 h; omega
  | some q =>
    refine ⟨q, rfl, ?_⟩
    rintro rfl
    have := step_q0_cases _ _ h
    simp only [reduceCtorEq, and_false, false_or, or_false, and_true] at this
    omega

theorem dfa_before_cont (q : Q) (pre rest : List Nat)
    (h : dfaRun q (pre ++ 0x80 :: rest) = some .q0) :
    ∃ q1, dfaRun q pre = some q1 ∧ q1 ≠ .q0 := by
  rw [dfaRun_append] at h
  cases hp : dfaRun q pre with
  | none => rw [hp] at h; cases h
  | some q1 =>
    refine ⟨q1, rfl, ?_⟩
    rintro rfl
    rw [hp, Option.some_bind, dfaRun] at h
    have : step .q0 0x80 = none := by decide
    rw [this] at h
    cases h

theorem dfa_incomplete (pre : List Nat) (h : incompleteSeq pre = true) :
    ∃ q, dfaRun .q0 pre = some q ∧ q ≠ .q0 := by
  match pre, h with
  | [b0], h =>
    simp only [incompleteSeq, Bool.and_eq_true, decide_eq_true_eq] at h
    obtain ⟨q, h1, h2⟩ := dfa_incomplete_one b0 h.1 h.2
    exact ⟨q, by rw [dfaRun, h1]; rfl, h2⟩
  | [b0, b1], h =>
    simp only [incompleteSeq, Bool.or_eq_true] at h
    rcases h with h | h
    · exact dfa_before_cont .q0 [b0, b1] [] (by
        have := dfa_legal3 b0 b1 0x80 [] h
        rw [dfaRun] at this
        exact this)
    · exact dfa_before_cont .q0 [b0, b1] [0x80] (by
        have := dfa_legal4 b0 b1 0x80 0x80 [] h
        rw [dfaRun] at this
        exact this)
  | [b0, b1, b2], h =>
    simp only [incompleteSeq] at h
    exact dfa_before_cont .q0 [b0, b1, b2] [] (by
      have := dfa_legal4 b0 b1 b2 0x80 [] h
      rw [dfaRun] at this
      exact this)

/-- A window that ends inside a so-far-legal sequence: no error from the window itself, and
the tail check raises lane 15. -/
theorem truncated_window (st : utf8_checker) (q : Q) (hq : q ≠ .q0)
    (hI : Inv st q) : st.check_carried_continuations.has_error ⟨15, by decide⟩ = 0xFF := by
  obtain ⟨h1, h2, h3⟩ := hI
  rw [check_carried_has_error, h1, Nat.zero_or, if_pos rfl]
  have hD := K_mid_D 0 q _ (by decide) hq h3
  have h15 : 2 ≤ st.previous.carried_continuations ⟨15, by decide⟩ := by
    simp only [seed] at hD
    rw [lane_lt _ 15 (by decide)] at hD
    exact hD
  rw [if_pos (toS8_gt_of_gt _ 1 (by omega) (h2 _))]

theorem dfa_skip_ascii (a l : List Nat) (ha : ∀ b, b ∈ a → b < 0x80) :
    dfaRun .q0 (a ++ l) = dfaRun .q0 l := by
  rw [dfaRun_append, dfa_ascii_q0 a ha, Option.some_bind]

theorem check_carried_fresh :
    utf8_checker.fresh.check_carried_continuations = utf8_checker.fresh := by
  unfold check_carried_continuations add_errors utf8_checker.fresh
  simp only [utf8_checker.mk.injEq, and_true]
  funext i
  revert i
  decide

theorem feed_ascii (ws : List V16) (h : ∀ w, w ∈ ws → ∀ i, w i < 0x80) :
    feed utf8_checker.fresh ws = utf8_checker.fresh := by
  induction ws with
  | nil => exact feed_nil _
  | cons w ws ih =>
    have hw : w.isBytes := fun i => by
      have := h w (List.mem_cons_self _ _) i
      omega
    have ha := (check_ascii_neon_iff w hw).2 (h w (List.mem_cons_self _ _))
    rw [feed_cons]
    unfold check_next_input
    rw [if_pos ha, check_carried_fresh]
    exact ih (fun w1 hw1 => h w1 (List.mem_cons_of_mem _ hw1))

/-! ## Trailing zero count -/

theorem ctzScan_spec (fuel x : Nat) (h0 : 0 < x) (hx : x < 2 ^ fuel) :
    ctzScan fuel x < fuel ∧ x.testBit (ctzScan fuel x) = true ∧
      ∀ j, j < ctzScan fuel x → x.testBit j = false := by
  induction fuel generalizing x with
  | zero => simp at hx; omega
  | succ fuel ih =>
    rw [ctzScan]
    by_cases h : x % 2 = 1
    · rw [if_pos h]
      refine ⟨by omega, ?_, fun j hj => absurd hj (Nat.not_lt_zero j)⟩
      rw [Nat.testBit_zero]
      exact decide_eq_true h
    · rw [if_neg h]
      have hx2 : x / 2 < 2 ^ fuel := by
        rw [Nat.pow_succ] at hx; omega
      obtain ⟨i1, i2, i3⟩ := ih (x / 2) (by omega) hx2
      refine ⟨by omega, ?_, ?_⟩
      · rw [Nat.add_comm, Nat.testBit_succ]; exact i2
      · intro j hj
        cases j with
        | zero => rw [Nat.testBit_zero]; exact decide_eq_false h
        | succ j => rw [Nat.testBit_succ]; exact i3 j (by omega)

/-! ## Claims -/

/-- C1, as the code behaves: `has_error` is not monotonic.  After the window `C0 80 00 ...`
lane 1 of `has_error` is `0xFF`; the next call of `check_next_input`, on the legal window
`C2 80 00 ...`, leaves lane 1 (and every other lane) zero, because
`check_smaller_than_0xF4` assigns to `has_error` where the other checks or into it. -/
theorem has_error_not_monotonic :
    (feed utf8_checker.fresh [vld1q [0xC0, 0x80]]).has_error ⟨1, by decide⟩ = 0xFF ∧
    ∀ i, (check_next_input (feed utf8_checker.fresh [vld1q [0xC0, 0x80]])
      (vld1q [0xC2, 0x80])).has_error i = 0 := by
  decide

/-- C2: for every byte string that is well-formed UTF-8 by the table of legal sequences, a
full run over its zero-padded sixteen-byte windows (fresh checker, `check_next_input` on every
window in order, then `check_carried_continuations`) leaves every lane of `has_error` zero. -/
theorem validate_wellFormed_no_error (s : List Nat) (h : wellFormedUtf8 s = true) :
    ∀ i, (validate s).has_error i = 0 :=
  validate_sound s h

/-- Instance of C2: a string with sequences of one to four bytes, crossing a window boundary. -/
theorem validate_wellFormed_no_error_witness :
    wellFormedUtf8 [0x41, 0xC3, 0xA9, 0xE2, 0x82, 0xAC, 0xF0, 0x9F, 0x98, 0x80, 0x42, 0xED, 0x9F,
      0xBF, 0x43, 0xF4, 0x8F, 0xBF, 0xBF] = true ∧
    ∀ i, (validate [0x41, 0xC3, 0xA9, 0xE2, 0x82, 0xAC, 0xF0, 0x9F, 0x98, 0x80, 0x42, 0xED, 0x9F,
      0xBF, 0x43, 0xF4, 0x8F, 0xBF, 0xBF]).has_error i = 0 :=
  ⟨by decide, validate_wellFormed_no_error _ (by decide)⟩

/-- C3, as the code behaves: the 18-byte string `C0 80`, fourteen zero bytes, `C2 80` holds
the overlong encoding `C0 80` and is not well-formed, yet a full run leaves every lane of
`has_error` zero: the error of the first window is overwritten while the second is checked. -/
theorem overlong_error_erased :
    wellFormedUtf8 ([0xC0, 0x80] ++ List.replicate 14 0 ++ [0xC2, 0x80]) = false ∧
    (∃ i, (feed utf8_checker.fresh [vld1q [0xC0, 0x80]]).has_error i ≠ 0) ∧
    ∀ i, (validate ([0xC0, 0x80] ++ List.replicate 14 0 ++ [0xC2, 0x80])).has_error i = 0 := by
  decide

/-- C4: for every window of sixteen bytes that is not well-formed UTF-8, a fresh checker
followed by `check_next_input` on the window and `check_carried_continuations` has some lane of
`has_error` different from zero. -/
theorem single_window_illFormed_error (w : V16) (hw : w.isBytes)
    (h : wellFormedUtf8 w.toList = false) : ∃ i, (runWindows [w]).has_error i ≠ 0 := by
  by_contra hne
  have hz : ∀ i, (runWindows [w]).has_error i = 0 := by
    intro i
    by_contra hi
    exact hne ⟨i, hi⟩
  rw [window_complete w hw hz] at h
  cases h

/-- Instance of C4: the window `41 E2 82 41 00 ...`, a three-byte sequence cut short. -/
theorem single_window_illFormed_error_witness :
    wellFormedUtf8 (vld1q [0x41, 0xE2, 0x82, 0x41]).toList = false ∧
    ∃ i, (runWindows [vld1q [0x41, 0xE2, 0x82, 0x41]]).has_error i ≠ 0 :=
  ⟨by decide,
    single_window_illFormed_error (vld1q [0x41, 0xE2, 0x82, 0x41]) (by decide) (by decide)⟩

/-- C5, as the code behaves: `has_any_errors` returns true exactly when every lane of
`has_error` is zero, so it returns true on a fresh checker (the comparison is `== 0`). -/
theorem has_any_errors_inverted :
    (∀ st : utf8_checker, st.has_any_errors = true ↔ ∀ i, st.has_error i = 0) ∧
    utf8_checker.fresh.has_any_errors = true ∧
    (runWindows [vld1q [0x80]]).has_any_errors = false :=
  ⟨has_any_errors_iff, by decide, by decide⟩

/-- C6: a legal four-byte sequence `b0 b1 b2 b3` split after its first `k` bytes (in
particular `k` = 1, 2, 3), the first part in the last lanes of one window and the rest in the
first lanes of the next, every other byte ASCII: a full run over the two windows leaves every
lane of `has_error` zero. -/
theorem split_four_byte_no_error (b0 b1 b2 b3 k : Nat) (w1 w2 : V16) (a1 a2 : List Nat)
    (hl : legal4 b0 b1 b2 b3 = true)
    (h1 : w1.toList = a1 ++ [b0, b1, b2, b3].take k)
    (h2 : w2.toList = [b0, b1, b2, b3].drop k ++ a2)
    (ha1 : ∀ b, b ∈ a1 → b < 0x80) (ha2 : ∀ b, b ∈ a2 → b < 0x80) :
    ∀ i, (runWindows [w1, w2]).has_error i = 0 := by
  apply runWindows_sound
  apply wellFormed_of_dfaRun
  simp only [windowBytes, List.append_nil]
  rw [h1, h2, List.append_assoc, ← List.append_assoc _ _ a2, List.take_append_drop,
    dfa_skip_ascii a1 _ ha1]
  show dfaRun .q0 (b0 :: b1 :: b2 :: b3 :: a2) = some .q0
  rw [dfa_legal4 b0 b1 b2 b3 a2 hl]
  exact dfa_ascii_q0 a2 ha2

/-- Instance of C6: `F0 90 | 80 80` split across two windows, the other lanes `A` and `B`. -/
theorem split_four_byte_no_error_witness :
    legal4 0xF0 0x90 0x80 0x80 = true ∧
    ∀ i, (runWindows [vld1q (List.replicate 14 0x41 ++ [0xF0, 0x90]),
      vld1q ([0x80, 0x80] ++ List.replicate 14 0x42)]).has_error i = 0 :=
  ⟨by decide, split_four_byte_no_error 0xF0 0x90 0x80 0x80 2 _ _ (List.replicate 14 0x41)
    (List.replicate 14 0x42) (by decide) (by decide) (by decide) (by decide) (by decide)⟩

/-- C7: a window fed to a fresh checker whose bytes are ASCII up to a so-far-legal but
incomplete multi-byte sequence that ends in lane 15: `has_error` is all zero after
`check_next_input`, and some lane is set after the following `check_carried_continuations`. -/
theorem truncated_sequence_tail_error (w : V16) (a pre : List Nat)
    (hw : w.toList = a ++ pre) (ha : ∀ b, b ∈ a → b < 0x80) (hp : incompleteSeq pre = true) :
    (∀ i, (check_next_input utf8_checker.fresh w).has_error i = 0) ∧
    ∃ i, (check_next_input utf8_checker.fresh w).check_carried_continuations.has_error i ≠ 0 := by
  obtain ⟨q, hq, hne⟩ := dfa_incomplete pre hp
  have hrun : dfaRun .q0 w.toList = some q := by
    rw [hw, dfa_skip_ascii a pre ha]; exact hq
  have hI := window_sound utf8_checker.fresh w .q0 q Inv_fresh hrun
  refine ⟨hI.1, ⟨15, by decide⟩, ?_⟩
  rw [truncated_window _ q hne hI]
  decide

/-- Instance of C7: `E2 82` in lanes 14 and 15 after fourteen ASCII bytes. -/
theorem truncated_sequence_tail_error_witness :
    incompleteSeq [0xE2, 0x82] = true ∧
    (∀ i, (check_next_input utf8_checker.fresh
      (vld1q (List.replicate 14 0x41 ++ [0xE2, 0x82]))).has_error i = 0) ∧
    ∃ i, (check_next_input utf8_checker.fresh
      (vld1q (List.replicate 14 0x41 ++ [0xE2, 0x82]))).check_carried_continuations.has_error i
        ≠ 0 :=
  ⟨by decide, truncated_sequence_tail_error _ (List.replicate 14 0x41) [0xE2, 0x82] (by decide)
    (by decide) (by decide)⟩

/-- C8, as the code behaves: with `ED A0` in lanes 14 and 15 of one window and `80` in lane 0
of the next, and with `F4 90` in lanes 14 and 15 and `80 80` in lanes 0 and 1 of the next, a
full run leaves every lane of `has_error` zero although the second byte exceeds its bound
(`0x9F` after `ED`, `0x8F` after `F4`); the error raised in the first window is overwritten. -/
theorem second_byte_bound_error_erased :
    (∃ i, (feed utf8_checker.fresh [vld1q (List.replicate 14 0 ++ [0xED, 0xA0])]).has_error i
      ≠ 0) ∧
    (∀ i, (runWindows [vld1q (List.replicate 14 0 ++ [0xED, 0xA0]),
      vld1q [0x80]]).has_error i = 0) ∧
    (∃ i, (feed utf8_checker.fresh [vld1q (List.replicate 14 0 ++ [0xF4, 0x90])]).has_error i
      ≠ 0) ∧
    (∀ i, (runWindows [vld1q (List.replicate 14 0 ++ [0xF4, 0x90]),
      vld1q [0x80, 0x80]]).has_error i = 0) := by
  decide

/-- C9: `check_ascii_neon` is true exactly on windows whose sixteen bytes are all below
`0x80`; on any sequence of such windows fed to a fresh checker every call of
`check_next_input` is the ASCII branch (it equals `check_carried_continuations`), the checker
is unchanged after every window (so `previous` stays zero and `has_error` stays zero), and
`has_error` is zero after the final `check_carried_continuations`. -/
theorem ascii_fast_path :
    (∀ w : V16, w.isBytes → (check_ascii_neon w = true ↔ ∀ i, w i < 0x80)) ∧
    ∀ ws : List V16, (∀ w, w ∈ ws → ∀ i, w i < 0x80) →
      (∀ w, w ∈ ws → ∀ st : utf8_checker,
        check_next_input st w = st.check_carried_continuations) ∧
      (∀ n, feed utf8_checker.fresh (ws.take n) = utf8_checker.fresh) ∧
      ∀ i, (runWindows ws).has_error i = 0 := by
  refine ⟨check_ascii_neon_iff, fun ws h => ⟨?_, ?_, ?_⟩⟩
  · intro w hw st
    have hb : w.isBytes := fun i => by
      have := h w hw i
      omega
    unfold check_next_input
    rw [if_pos ((check_ascii_neon_iff w hb).2 (h w hw))]
  · intro n
    exact feed_ascii _ (fun w hw => h w (List.mem_of_mem_take hw))
  · intro i
    unfold runWindows
    rw [feed_ascii ws h, check_carried_fresh]
    rfl

/-- Instance of C9: two ASCII windows. -/
theorem ascii_fast_path_witness :
    check_ascii_neon (vld1q [0x48, 0x65, 0x6C, 0x6C, 0x6F]) = true ∧
    feed utf8_checker.fresh [vld1q [0x48, 0x65, 0x6C, 0x6C, 0x6F], vld1q [0x7F, 0x00, 0x41]] =
      utf8_checker.fresh ∧
    ∀ i, (runWindows [vld1q [0x48, 0x65, 0x6C, 0x6C, 0x6F], vld1q [0x7F, 0x00, 0x41]]).has_error i
      = 0 :=
  ⟨(ascii_fast_path.1 (vld1q [0x48, 0x65, 0x6C, 0x6C, 0x6F]) (by decide)).2 (by decide),
    (ascii_fast_path.2 [vld1q [0x48, 0x65, 0x6C, 0x6C, 0x6F], vld1q [0x7F, 0x00, 0x41]]
      (by decide)).2.1 2,
    (ascii_fast_path.2 [vld1q [0x48, 0x65, 0x6C, 0x6C, 0x6F], vld1q [0x7F, 0x00, 0x41]]
      (by decide)).2.2⟩

/-- C10: for every non-zero 64-bit `x`, `trailing_zeroes x` is the index of the lowest set bit:
it is below 64, that bit of `x` is set and every lower bit is clear; `trailing_zeroes 1 = 0` and
`trailing_zeroes 0x8000000000000000 = 63`. -/
theorem trailing_zeroes_lowest_set_bit (x : Nat) (h0 : 0 < x) (hx : x < 2 ^ 64) :
    (trailing_zeroes x < 64 ∧ x.testBit (trailing_zeroes x) = true ∧
      ∀ j, j < trailing_zeroes x → x.testBit j = false) ∧
    trailing_zeroes 1 = 0 ∧ trailing_zeroes 0x8000000000000000 = 63 := by
  refine ⟨?_, by decide, by decide⟩
  unfold trailing_zeroes __builtin_ctzll
  rw [Nat.mod_eq_of_lt hx]
  exact ctzScan_spec 64 x h0 hx

/-- Instance of C10 at `x = 40`. -/
theorem trailing_zeroes_lowest_set_bit_witness :
    (0 < 40 ∧ 40 < 2 ^ 64) ∧ (trailing_zeroes 40 < 64 ∧ (40 : Nat).testBit (trailing_zeroes 40) = true ∧
      ∀ j, j < trailing_zeroes 40 → (40 : Nat).testBit j = false) ∧
    trailing_zeroes 1 = 0 ∧ trailing_zeroes 0x8000000000000000 = 63 :=
  ⟨by decide, trailing_zeroes_lowest_set_bit 40 (by decide) (by decide)⟩

/-! ## Single checks -/

theorem mask_mask_ite (p q : Prop) [Decidable p] [Decidable q] :
    (if ((if p then 0xFF else 0 : Nat) = if q then 0xFF else 0) then (0xFF : Nat) else 0) =
      if (p ↔ q) then 0xFF else 0 := by
  by_cases hp : p <;> by_cases hq : q <;> simp [hp, hq]

theorem toS8_zero : toS8 0 = 0 := by decide

theorem check_continuations_has_error (st : utf8_checker) (l c : V16) (i : Fin 16) :
    (check_continuations st l c).has_error i =
      (st.has_error i ||| if (toS8 (c i) > toS8 (l i) ↔ toS8 (l i) > 0) then 0xFF else 0) := by
  unfold check_continuations add_errors vorrq vceqq vcgtq_s8 vdupq_n
  simp only [Nat.zero_mod, toS8_zero]
  rw [mask_mask_ite]

theorem dfaRun_of_append (q q2 : Q) (l1 l2 : List Nat) (h : dfaRun q (l1 ++ l2) = some q2) :
    ∃ q1, dfaRun q l1 = some q1 ∧ dfaRun q1 l2 = some q2 := by
  rw [dfaRun_append] at h
  cases h1 : dfaRun q l1 with
  | none => rw [h1] at h; cases h
  | some q1 => rw [h1, Option.some_bind] at h; exact ⟨q1, rfl, h⟩

/-- On windows that begin a well-formed string the checker keeps the invariant. -/
theorem Inv_of_legal_start (ws : List V16) (rest : List Nat)
    (h : wellFormedUtf8 (windowBytes ws ++ rest) = true) :
    ∃ q, Inv (feed utf8_checker.fresh ws) q := by
  obtain ⟨q, h1, _⟩ := dfaRun_of_append _ _ _ _ (dfaRun_of_wellFormed _ h)
  exact ⟨q, feed_sound ws _ .q0 q Inv_fresh h1⟩

theorem tail_mask_iff (st : utf8_checker) (h1 : ∀ i, st.has_error i = 0)
    (h2 : ∀ i, st.previous.carried_continuations i ≤ 4) :
    (∃ i, st.check_carried_continuations.has_error i ≠ 0) ↔
      1 < st.previous.carried_continuations ⟨15, by decide⟩ := by
  constructor
  · rintro ⟨i, hi⟩
    rw [check_carried_has_error, h1 i, Nat.zero_or] at hi
    by_cases h15 : i.val = 15
    · have e : i = ⟨15, by decide⟩ := Fin.ext h15
      rw [e] at hi
      by_contra hle
      apply hi
      rw [if_pos rfl, if_neg (toS8_le_of_le _ 1 (by omega) (by decide))]
    · exfalso
      apply hi
      rw [if_neg h15, if_neg (toS8_le_of_le _ 9 (le_trans (h2 i) (by decide)) (by decide))]
  · intro h
    refine ⟨⟨15, by decide⟩, ?_⟩
    rw [check_carried_has_error, h1, Nat.zero_or, if_pos rfl,
      if_pos (toS8_gt_of_gt _ 1 h (h2 _))]
    decide

/-! ## Bit manipulation -/

theorem add_overflow_eq (msvc : Bool) (a b : Nat) (ha : a < 2 ^ 64) (hb : b < 2 ^ 64) :
    add_overflow msvc a b = (decide (2 ^ 64 ≤ a + b), (a + b) % 2 ^ 64) := by
  cases msvc
  · simp only [add_overflow, __builtin_uaddll_overflow, Bool.false_eq_true, if_false,
      Prod.mk.injEq, and_true, decide_eq_decide]
    omega
  · simp only [add_overflow, _addcarry_u64, if_true, Nat.zero_add, Prod.mk.injEq, and_true,
      decide_eq_decide]
    omega

theorem mul_overflow_eq (msvc : Bool) (a b : Nat) (ha : a < 2 ^ 64) (hb : b < 2 ^ 64) :
    mul_overflow msvc a b = (decide (2 ^ 64 ≤ a * b), (a * b) % 2 ^ 64) := by
  have hab : a * b < 2 ^ 64 * 2 ^ 64 := Nat.mul_lt_mul'' ha hb
  cases msvc
  · simp only [mul_overflow, __builtin_umulll_overflow, Bool.false_eq_true, if_false,
      Prod.mk.injEq, and_true, decide_eq_decide]
    generalize a * b = p at hab ⊢
    omega
  · simp only [mul_overflow, _umul128, if_true, Prod.mk.injEq, and_true, decide_eq_decide]
    generalize a * b = p at hab ⊢
    omega

theorem testBit_top (n x : Nat) (h1 : 2 ^ n ≤ x) (h2 : x < 2 ^ (n + 1)) :
    x.testBit n = true := by
  rw [Nat.testBit_to_div_mod, decide_eq_true_eq]
  have h3 : x / 2 ^ n = 1 := by
    apply Nat.div_eq_of_lt_le
    · rw [Nat.one_mul]; exact h1
    · rw [Nat.pow_succ] at h2; omega
  rw [h3]

theorem clzScan_spec (n x : Nat) (h0 : 0 < x) (hx : x < 2 ^ n) :
    clzScan n x < n ∧ x.testBit (n - 1 - clzScan n x) = true ∧
      ∀ j, n - 1 - clzScan n x < j → x.testBit j = false := by
  induction n with
  | zero => simp at hx; omega
  | succ n ih =>
    rw [clzScan]
    by_cases h : x.testBit n = true
    · rw [if_pos h]
      refine ⟨by omega, by simpa using h, ?_⟩
      intro j hj
      exact Nat.testBit_lt_two_pow
        (lt_of_lt_of_le hx (Nat.pow_le_pow_right (by decide) (by omega)))
    · rw [if_neg h]
      have hlt : x < 2 ^ n := by
        by_contra hge
        exact h (testBit_top n x (by omega) hx)
      obtain ⟨i1, i2, i3⟩ := ih hlt
      refine ⟨by omega, ?_, ?_⟩
      · rw [show n + 1 - 1 - (1 + clzScan n x) = n - 1 - clzScan n x by omega]; exact i2
      · intro j hj
        exact i3 j (by omega)

theorem bsrScan_eq (n x : Nat) (h0 : 0 < x) (hx : x < 2 ^ n) :
    bsrScan n x = some (n - 1 - clzScan n x) := by
  induction n with
  | zero => simp at hx; omega
  | succ n ih =>
    rw [bsrScan, clzScan]
    by_cases h : x.testBit n = true
    · rw [if_pos h, if_pos h]; rfl
    · rw [if_neg h, if_neg h]
      have hlt : x < 2 ^ n := by
        by_contra hge
        exact h (testBit_top n x (by omega) hx)
      rw [ih hlt]
      have := (clzScan_spec n x h0 hlt).1
      congr 1
      omega

theorem bsrScan_zero (n : Nat) : bsrScan n 0 = none := by
  induction n with
  | zero => rfl
  | succ n ih => rw [bsrScan, Nat.zero_testBit]; exact ih

theorem leading_zeroes_nonzero (msvc : Bool) (x : Nat) (h0 : 0 < x) (hx : x < 2 ^ 64) :
    leading_zeroes msvc x = some (clzScan 64 x) := by
  have hs := (clzScan_spec 64 x h0 hx).1
  cases msvc
  · simp only [leading_zeroes, __builtin_clzll, Bool.false_eq_true, if_false,
      Nat.mod_eq_of_lt hx]
    rw [if_neg (by omega)]
  · simp only [leading_zeroes, _BitScanReverse64, if_true, Nat.mod_eq_of_lt hx,
      bsrScan_eq 64 x h0 hx]
    congr 1
    omega

theorem bitCount_le (n x : Nat) : bitCount n x ≤ n := by
  induction n with
  | zero => exact Nat.le_refl 0
  | succ n ih =>
    rw [bitCount]
    have : (x.testBit n).toNat ≤ 1 := Bool.toNat_le _
    omega

theorem bitCount_shift (n m x : Nat) :
    bitCount (n + m) x = bitCount n x + bitCount m (x >>> n) := by
  induction m with
  | zero => rfl
  | succ m ih =>
    rw [← Nat.add_assoc, bitCount, bitCount, ih, Nat.testBit_shiftRight, Nat.add_assoc]

theorem bitCount_mod (m n x : Nat) (h : m ≤ n) : bitCount m (x % 2 ^ n) = bitCount m x := by
  induction m with
  | zero => rfl
  | succ m ih =>
    rw [bitCount, bitCount, ih (by omega), Nat.testBit_mod_two_pow,
      decide_eq_true (by omega : m < n), Bool.true_and]

theorem bitCount_bytes (x : Nat) :
    bitCount 64 x = bitCount 8 x + bitCount 8 (x >>> 8) + bitCount 8 (x >>> 16) +
      bitCount 8 (x >>> 24) + bitCount 8 (x >>> 32) + bitCount 8 (x >>> 40) +
      bitCount 8 (x >>> 48) + bitCount 8 (x >>> 56) := by
  rw [show 64 = 8 + (8 + (8 + (8 + (8 + (8 + (8 + 8)))))) by rfl]
  simp only [bitCount_shift, ← Nat.shiftRight_add]
  simp only [Nat.reduceAdd]
  omega

theorem hamming_unfold (x : Nat) :
    hamming x = (bitCount 8 x + bitCount 8 (x >>> 8) + bitCount 8 (x >>> 16) +
      bitCount 8 (x >>> 24) + bitCount 8 (x >>> 32) + bitCount 8 (x >>> 40) +
      bitCount 8 (x >>> 48) + bitCount 8 (x >>> 56)) % 256 := by
  have e : ∀ y, bitCount 8 (y % 256) = bitCount 8 y := fun y => bitCount_mod 8 8 y (le_refl _)
  simp only [hamming, vaddv_u8, vcnt_u8, toU8x8, e]
  rfl

theorem hamming_eq (x : Nat) : hamming x = population_count x := by
  have h : bitCount 64 x ≤ 64 := bitCount_le 64 x
  rw [hamming_unfold, population_count]
  rw [bitCount_bytes] at h ⊢
  omega

theorem clear_lowest_bit_eq (x : Nat) (h0 : 0 < x) (hx : x < 2 ^ 64) :
    clear_lowest_bit x = x &&& (x - 1) := by
  have e : (x + 2 ^ 64 - 1) % 2 ^ 64 = x - 1 := by omega
  rw [clear_lowest_bit, e]

theorem clear_lowest_bit_zero : clear_lowest_bit 0 = 0 := by decide

theorem clear_lowest_bit_le (x : Nat) : clear_lowest_bit x ≤ x := Nat.and_le_left

theorem and_pred_testBit (fuel x : Nat) (h0 : 0 < x) (hx : x < 2 ^ fuel) (j : Nat) :
    (x &&& (x - 1)).testBit j = (x.testBit j && decide (j ≠ ctzScan fuel x)) := by
  induction fuel generalizing x j with
  | zero => simp at hx; omega
  | succ fuel ih =>
    rw [ctzScan, Nat.testBit_and]
    by_cases h : x % 2 = 1
    · rw [if_pos h]
      cases j with
      | zero =>
        have : (x - 1) % 2 = 0 := by omega
        simp [Nat.testBit_zero, this]
      | succ j =>
        rw [Nat.testBit_succ, Nat.testBit_succ, show (x - 1) / 2 = x / 2 by omega]
        simp
    · rw [if_neg h]
      cases j with
      | zero => simp [Nat.testBit_zero, h]
      | succ j =>
        have hx2 : x / 2 < 2 ^ fuel := by rw [Nat.pow_succ] at hx; omega
        have := ih (x / 2) (by omega) hx2 j
        rw [Nat.testBit_and] at this
        rw [Nat.testBit_succ, Nat.testBit_succ, show (x - 1) / 2 = x / 2 - 1 by omega, this]
        congr 1
        apply decide_eq_decide.2
        omega

theorem trailing_zeroes_eq (x : Nat) (hx : x < 2 ^ 64) : trailing_zeroes x = ctzScan 64 x := by
  unfold trailing_zeroes __builtin_ctzll
  rw [Nat.mod_eq_of_lt hx]

theorem clear_lowest_bit_testBit (x : Nat) (h0 : 0 < x) (hx : x < 2 ^ 64) (j : Nat) :
    (clear_lowest_bit x).testBit j = (x.testBit j && decide (j ≠ trailing_zeroes x)) := by
  rw [clear_lowest_bit_eq x h0 hx, trailing_zeroes_eq x hx]
  exact and_pred_testBit 64 x h0 hx j

theorem bitCount_clear (x : Nat) (h0 : 0 < x) (hx : x < 2 ^ 64) (n : Nat) :
    bitCount n (clear_lowest_bit x) + (if trailing_zeroes x < n then 1 else 0) =
      bitCount n x := by
  have ht : x.testBit (trailing_zeroes x) = true := by
    rw [trailing_zeroes_eq x hx]; exact (ctzScan_spec 64 x h0 hx).2.1
  induction n with
  | zero => rfl
  | succ n ih =>
    rw [bitCount, bitCount, clear_lowest_bit_testBit x h0 hx]
    by_cases h1 : trailing_zeroes x < n
    · rw [if_pos h1] at ih
      rw [if_pos (by omega), decide_eq_true (by omega : n ≠ trailing_zeroes x), Bool.and_true]
      omega
    · rw [if_neg h1] at ih
      by_cases h2 : trailing_zeroes x = n
      · rw [if_pos (by omega), ← h2, ht, decide_eq_false (by omega), Bool.and_false]
        simp only [Bool.toNat_false, Bool.toNat_true]
        rw [← h2] at ih
        omega
      · rw [if_neg (by omega), decide_eq_true (by omega : n ≠ trailing_zeroes x), Bool.and_true]
        omega

theorem trailing_zeroes_lt (x : Nat) (h0 : 0 < x) (hx : x < 2 ^ 64) : trailing_zeroes x < 64 := by
  rw [trailing_zeroes_eq x hx]; exact (ctzScan_spec 64 x h0 hx).1

theorem hamming_clear (x : Nat) (h0 : 0 < x) (hx : x < 2 ^ 64) :
    hamming (clear_lowest_bit x) + 1 = hamming x := by
  rw [hamming_eq, hamming_eq, population_count, population_count]
  have := bitCount_clear x h0 hx 64
  rw [if_pos (trailing_zeroes_lt x h0 hx)] at this
  exact this

theorem bitCount_eq_zero (n x : Nat) (h : bitCount n x = 0) (j : Nat) (hj : j < n) :
    x.testBit j = false := by
  induction n with
  | zero => omega
  | succ n ih =>
    rw [bitCount] at h
    by_cases hjn : j = n
    · subst hjn
      cases hb : x.testBit j with
      | false => rfl
      | true => rw [hb] at h; simp at h
    · exact ih (by omega) (by omega)

theorem hamming_eq_zero (x : Nat) (hx : x < 2 ^ 64) (h : hamming x = 0) : x = 0 := by
  rw [hamming_eq, population_count] at h
  apply Nat.eq_of_testBit_eq
  intro j
  rw [Nat.zero_testBit]
  by_cases hj : j < 64
  · exact bitCount_eq_zero 64 x h j hj
  · exact Nat.testBit_lt_two_pow
      (lt_of_lt_of_le hx (Nat.pow_le_pow_right (by decide) (by omega)))

theorem hamming_zero : hamming 0 = 0 := by decide

theorem iterate_clear (n x : Nat) (hx : x < 2 ^ 64) (hn : hamming x = n) :
    Nat.iterate clear_lowest_bit n x = 0 ∧
      ∀ k, k < n → Nat.iterate clear_lowest_bit k x ≠ 0 ∧
        Nat.iterate clear_lowest_bit k x < 2 ^ 64 ∧
        hamming (Nat.iterate clear_lowest_bit k x) = n - k := by
  induction n generalizing x with
  | zero => exact ⟨hamming_eq_zero x hx hn, fun k hk => absurd hk (Nat.not_lt_zero k)⟩
  | succ n ih =>
    have h0 : 0 < x := by
      rcases Nat.eq_zero_or_pos x with rfl | h
      · rw [hamming_zero] at hn; omega
      · exact h
    have hc := hamming_clear x h0 hx
    have hlt : clear_lowest_bit x < 2 ^ 64 := lt_of_le_of_lt (clear_lowest_bit_le x) hx
    obtain ⟨i1, i2⟩ := ih (clear_lowest_bit x) hlt (by omega)
    refine ⟨i1, ?_⟩
    intro k hk
    cases k with
    | zero => exact ⟨by simp only [Nat.iterate]; omega, hx, hn⟩
    | succ k =>
      have := i2 k (by omega)
      simp only [Nat.iterate]
      refine ⟨this.1, this.2.1, ?_⟩
      rw [this.2.2]; omega

theorem trailing_zeroes_clear_lt (y : Nat) (h0 : 0 < y) (hy : y < 2 ^ 64)
    (hz : clear_lowest_bit y ≠ 0) :
    trailing_zeroes y < trailing_zeroes (clear_lowest_bit y) := by
  have hlt : clear_lowest_bit y < 2 ^ 64 := lt_of_le_of_lt (clear_lowest_bit_le y) hy
  have hs := ctzScan_spec 64 _ (Nat.pos_of_ne_zero hz) hlt
  rw [← trailing_zeroes_eq _ hlt] at hs
  have hb := hs.2.1
  rw [clear_lowest_bit_testBit y h0 hy, Bool.and_eq_true, decide_eq_true_eq] at hb
  have hy2 := (ctzScan_spec 64 y h0 hy).2.2
  rw [← trailing_zeroes_eq y hy] at hy2
  by_contra hge
  have := hy2 (trailing_zeroes (clear_lowest_bit y)) (by omega)
  rw [this] at hb
  exact absurd hb.1 (by decide)

theorem visited_bits (n x : Nat) (hx : x < 2 ^ 64) (hn : hamming x = n) (j : Nat) :
    x.testBit j = true ↔
      ∃ k, k < n ∧ trailing_zeroes (Nat.iterate clear_lowest_bit k x) = j := by
  induction n generalizing x with
  | zero =>
    rw [hamming_eq_zero x hx hn, Nat.zero_testBit]
    constructor
    · intro h; cases h
    · rintro ⟨k, hk, _⟩; omega
  | succ n ih =>
    have h0 : 0 < x := by
      rcases Nat.eq_zero_or_pos x with rfl | h
      · rw [hamming_zero] at hn; omega
      · exact h
    have hc := hamming_clear x h0 hx
    have hlt : clear_lowest_bit x < 2 ^ 64 := lt_of_le_of_lt (clear_lowest_bit_le x) hx
    have ih2 := ih (clear_lowest_bit x) hlt (by omega)
    have ht : x.testBit (trailing_zeroes x) = true := by
      rw [trailing_zeroes_eq x hx]; exact (ctzScan_spec 64 x h0 hx).2.1
    have hb := clear_lowest_bit_testBit x h0 hx j
    constructor
    · intro h
      by_cases hj : j = trailing_zeroes x
      · exact ⟨0, by omega, hj.symm⟩
      · rw [h, decide_eq_true hj] at hb
        obtain ⟨k, hk, hk2⟩ := ih2.1 hb
        exact ⟨k + 1, by omega, hk2⟩
    · rintro ⟨k, hk, hk2⟩
      cases k with
      | zero => simp only [Nat.iterate] at hk2; rw [← hk2]; exact ht
      | succ k =>
        have := ih2.2 ⟨k, by omega, hk2⟩
        rw [hb, Bool.and_eq_true] at this
        exact this.1

end simdjson.arm64

namespace simdjson.haswell

/-! ## The haswell bitmask -/

theorem maskBits_lt (f : Nat → Bool) (n : Nat) : maskBits f n < 2 ^ n := by
  induction n with
  | zero => simp [maskBits]
  | succ n ih =>
    rw [maskBits, Nat.pow_succ]
    split_ifs <;> omega

theorem maskBits_testBit (f : Nat → Bool) (n i : Nat) :
    (maskBits f n).testBit i = (decide (i < n) && f i) := by
  induction n with
  | zero => simp [maskBits]
  | succ n ih =>
    have hlt := maskBits_lt f n
    rw [maskBits]
    rcases Nat.lt_trichotomy i n with h | h | h
    · rw [decide_eq_true (by omega : i < n + 1), Bool.true_and]
      rw [decide_eq_true h, Bool.true_and] at ih
      by_cases hf : f n = true
      · rw [if_pos hf, Nat.add_comm, Nat.testBit_two_pow_add_gt h, ih]
      · rw [if_neg hf, Nat.add_zero, ih]
    · subst h
      rw [decide_eq_true (by omega : i < i + 1), Bool.true_and]
      by_cases hf : f i = true
      · rw [if_pos hf, Nat.add_comm, Nat.testBit_two_pow_add_eq, Nat.testBit_lt_two_pow hlt, hf]
        rfl
      · rw [if_neg hf, Nat.add_zero, Nat.testBit_lt_two_pow hlt]
        simp only [Bool.not_eq_true] at hf
        exact hf.symm
    · rw [decide_eq_false (by omega : ¬ i < n + 1), Bool.false_and]
      apply Nat.testBit_lt_two_pow
      have h1 : maskBits f n + (if f n = true then 2 ^ n else 0) < 2 ^ (n + 1) := by
        rw [Nat.pow_succ]; split_ifs <;> omega
      exact lt_of_lt_of_le h1 (Nat.pow_le_pow_right (by decide) (by omega))

theorem movemask_lo (a : M256) :
    (_mm256_movemask_epi8 a % 2 ^ 32).toNat = maskBits (fun i => (lane32 a i).testBit 7) 32 := by
  have hlt := maskBits_lt (fun i => (lane32 a i).testBit 7) 32
  unfold _mm256_movemask_epi8
  simp only []
  generalize maskBits (fun i => (lane32 a i).testBit 7) 32 = b at hlt ⊢
  split_ifs <;> omega

theorem movemask_hi (a : M256) :
    (((_mm256_movemask_epi8 a % 2 ^ 64).toNat) <<< 32) % 2 ^ 64 =
      maskBits (fun i => (lane32 a i).testBit 7) 32 <<< 32 := by
  have hlt := maskBits_lt (fun i => (lane32 a i).testBit 7) 32
  unfold _mm256_movemask_epi8
  simp only [Nat.shiftLeft_eq]
  generalize maskBits (fun i => (lane32 a i).testBit 7) 32 = b at hlt ⊢
  split_ifs <;> omega

theorem movemask_neg (a : M256) :
    decide (_mm256_movemask_epi8 a < 0) = (lane32 a 31).testBit 7 := by
  have hlt := maskBits_lt (fun i => (lane32 a i).testBit 7) 32
  have hb := maskBits_testBit (fun i => (lane32 a i).testBit 7) 32 31
  simp only [(by decide : (31 : Nat) < 32), decide_True, Bool.true_and] at hb
  rw [← hb, Nat.testBit_to_div_mod]
  unfold _mm256_movemask_epi8
  simp only []
  generalize maskBits (fun i => (lane32 a i).testBit 7) 32 = b at hlt ⊢
  apply decide_eq_decide.2
  split_ifs <;> omega

theorem to_bitmask_testBit (inp : simd_input) (i : Nat) :
    inp.to_bitmask.testBit i = (inp.byte i).testBit 7 := by
  unfold simd_input.to_bitmask
  simp only []
  rw [movemask_lo, movemask_hi, Nat.testBit_or, Nat.testBit_shiftLeft, maskBits_testBit,
    maskBits_testBit]
  unfold simd_input.byte lane32
  by_cases h : i < 32
  · have h3 : ¬ i ≥ 32 := by omega
    simp [h, h3]
  · have h3 : i ≥ 32 := by omega
    by_cases h2 : i - 32 < 32
    · simp [h, h2, h3]
    · simp [h, h2, h3]

theorem map_byte (inp : simd_input) (g : Nat → Nat) (f : M256 → M256)
    (hf : ∀ a i, f a i = g (a i)) (i : Nat) (hi : i < 64) :
    (inp.map f).byte i = g (inp.byte i) := by
  unfold simd_input.map simd_input.byte
  simp only []
  by_cases h : i < 32
  · rw [dif_pos h, dif_pos h, hf]
  · rw [dif_neg h, dif_neg h, dif_pos (by omega), dif_pos (by omega), hf]

theorem eq_testBit (inp : simd_input) (m i : Nat) (hm : m < 256) (hi : i < 64) :
    (inp.eq m).testBit i = decide (inp.byte i = m) := by
  unfold simd_input.eq
  simp only []
  rw [to_bitmask_testBit, map_byte inp (fun b => if b = m then 0xFF else 0) _ ?_ i hi]
  · by_cases h : inp.byte i = m
    · rw [if_pos h, decide_eq_true h]; decide
    · rw [if_neg h, decide_eq_false h]; decide
  · intro a j
    unfold _mm256_cmpeq_epi8 _mm256_set1_epi8
    simp only [Nat.mod_eq_of_lt hm]

theorem lteq_testBit (inp : simd_input) (m i : Nat) (hm : m < 256) (hi : i < 64) :
    (inp.lteq m).testBit i = decide (inp.byte i ≤ m) := by
  unfold simd_input.lteq
  simp only []
  rw [to_bitmask_testBit, map_byte inp (fun b => if max m b = m then 0xFF else 0) _ ?_ i hi]
  · by_cases h : inp.byte i ≤ m
    · rw [if_pos (by omega), decide_eq_true h]; decide
    · rw [if_neg (by omega), decide_eq_false h]; decide
  · intro a j
    unfold _mm256_cmpeq_epi8 _mm256_max_epu8 _mm256_set1_epi8
    simp only [Nat.mod_eq_of_lt hm]

end simdjson.haswell

namespace simdjson.arm64
open utf8_checker

/-! ## The carried length on well-formed streams -/

/-- A state that does not await a third or fourth byte. -/
theorem K_step_exact (i : Nat) (q q1 : Q) (s : LaneSt) (b : Nat) (hK : K i q s)
    (hs : step q b = some q1) (hg : 1 ≤ i ∨ (q ≠ .m3 ∧ q ≠ .m4a ∧ q ≠ .m4b)) :
    (laneStepN s b).D = pending q1 + 1 := by
  obtain ⟨A, B, C, P, H, D, E⟩ := s
  by_cases hq : q = .q0
  · subst hq
    simp only [K] at hK
    rcases step_q0_cases q1 b hs with ⟨hb, rfl⟩ | ⟨hb1, hb2, rfl⟩ | ⟨hb1, hb2, rfl⟩ | ⟨hb, rfl⟩ |
        ⟨hb, rfl⟩ | ⟨hb1, hb2, hb3, rfl⟩ | ⟨hb, rfl⟩ | ⟨hb1, hb2, rfl⟩ | ⟨hb, rfl⟩
    · simp only [laneStepN, pending, lenN_ascii b (by omega)]; omega
    · simp only [laneStepN, pending, lenN_two b (by omega) (by omega)]; omega
    · simp only [laneStepN, pending, lenN_two b (by omega) (by omega)]; omega
    · simp only [laneStepN, pending, lenN_three b (by omega) (by omega)]; omega
    · simp only [laneStepN, pending, lenN_three b (by omega) (by omega)]; omega
    · simp only [laneStepN, pending, lenN_three b (by omega) (by omega)]; omega
    · simp only [laneStepN, pending, lenN_four b (by omega)]; omega
    · simp only [laneStepN, pending, lenN_four b (by omega)]; omega
    · simp only [laneStepN, pending, lenN_four b (by omega)]; omega
  · obtain ⟨h1, h2, rfl⟩ := step_mid_some q q1 b hq hs
    cases q <;> first | exact absurd rfl hq | skip
    all_goals
      simp only [accepts] at h1 h2 ⊢
      simp only [K] at hK
      simp only [laneStepN, pending, lenN_cont b (by omega) (by omega)]
      simp only [ne_eq, not_true_eq_false, false_and, and_false, or_false, reduceCtorEq,
        not_false_eq_true, and_self, or_true] at hg
      omega

theorem rem_step (q q1 : Q) (b : Nat) (s : List Nat) (hs : step q b = some q1) :
    remAux (pending q) (b :: s) = (pending q1 + 1) :: remAux (pending q1) s := by
  by_cases hq : q = .q0
  · subst hq
    have e : seqLen b = pending q1 + 1 := by
      unfold seqLen
      rcases step_q0_cases q1 b hs with ⟨hb, rfl⟩ | ⟨hb1, hb2, rfl⟩ | ⟨hb1, hb2, rfl⟩ |
          ⟨hb, rfl⟩ | ⟨hb, rfl⟩ | ⟨hb1, hb2, hb3, rfl⟩ | ⟨hb, rfl⟩ | ⟨hb1, hb2, rfl⟩ | ⟨hb, rfl⟩ <;>
        simp only [pending] <;> split_ifs <;> omega
    simp only [pending, remAux, e, Nat.add_sub_cancel]
  · obtain ⟨h1, h2, rfl⟩ := step_mid_some q q1 b hq hs
    cases q <;> first | exact absurd rfl hq | skip
    all_goals first | (simp only [accepts] at h1 h2; omega) | rfl

theorem rem_append (q q1 : Q) (l1 l2 : List Nat) (h : dfaRun q l1 = some q1) :
    remAux (pending q) (l1 ++ l2) = remAux (pending q) l1 ++ remAux (pending q1) l2 := by
  induction l1 generalizing q with
  | nil =>
    simp only [dfaRun, Option.some.injEq] at h
    subst h
    cases hp : pending q <;> simp [remAux]
  | cons b l ih =>
    obtain ⟨qm, h1, h2⟩ := (dfa_cons _ _ _ _).1 h
    rw [List.cons_append, rem_step q qm b _ h1, rem_step q qm b _ h1, ih qm h2]
    rfl

theorem remAux_length (k : Nat) (l : List Nat) : (remAux k l).length = l.length := by
  induction l generalizing k with
  | nil => cases k <;> rfl
  | cons b l ih => cases k <;> simp [remAux, ih]

theorem lanes_exact (st : utf8_checker) (w : V16) (q : Q) (hK : K 0 q (seed st)) (n : Nat)
    (hn : n ≤ 16) (qn : Q) (h : dfaRun q ((List.range n).map (lane w)) = some qn) (j : Nat)
    (hj : j < n) (hg : 1 ≤ j ∨ (q ≠ .m3 ∧ q ≠ .m4a ∧ q ≠ .m4b)) :
    (laneRun st w (j + 1)).D = (remAux (pending q) ((List.range n).map (lane w))).getD j 0 := by
  induction n generalizing qn with
  | zero => omega
  | succ n ih =>
    rw [List.range_succ, List.map_append, List.map_singleton] at h ⊢
    obtain ⟨qm, h0, h1⟩ := (dfaRun_snoc _ _ _ _).1 h
    rw [rem_append q qm _ _ h0]
    have hlen : (remAux (pending q) ((List.range n).map (lane w))).length = n := by
      rw [remAux_length, List.length_map, List.length_range]
    by_cases hjn : j = n
    · subst hjn
      rw [List.getD_append_right _ _ _ _ (by omega), hlen, Nat.sub_self, rem_step qm qn _ _ h1]
      obtain ⟨hKm, _⟩ := lanes_sound st w q hK j (by omega) qm h0
      have hb := step_some_lt _ _ _ h1
      obtain ⟨bA, bB, _, _, _, _⟩ := K_bounds _ _ _ hKm
      rw [laneRun, laneStep_eq _ _ hb bA bB]
      have hg2 : 1 ≤ j ∨ (qm ≠ .m3 ∧ qm ≠ .m4a ∧ qm ≠ .m4b) := by
        rcases hg with hg | hg
        · exact Or.inl hg
        · by_cases hj0 : j = 0
          · subst hj0
            simp only [List.range_zero, List.map_nil, dfaRun, Option.some.injEq] at h0
            subst h0
            exact Or.inr hg
          · exact Or.inl (by omega)
      rw [K_step_exact j qm qn _ _ hKm h1 hg2]
      rfl
    · rw [List.getD_append _ _ _ _ (by omega)]
      exact ih (by omega) qm h0 (by omega)

theorem feed_append (st : utf8_checker) (l1 l2 : List V16) :
    feed st (l1 ++ l2) = feed (feed st l1) l2 := by
  unfold feed
  rw [List.foldl_append]

theorem windowBytes_append (l1 l2 : List V16) :
    windowBytes (l1 ++ l2) = windowBytes l1 ++ windowBytes l2 := by
  induction l1 with
  | nil => rfl
  | cons w l ih => rw [List.cons_append, windowBytes, windowBytes, ih, List.append_assoc]

theorem toList_length (w : V16) : w.toList.length = 16 := by
  unfold V16.toList
  rw [List.length_map, List.length_range]

theorem windowBytes_length (ws : List V16) : (windowBytes ws).length = 16 * ws.length := by
  induction ws with
  | nil => rfl
  | cons w l ih => rw [windowBytes, List.length_append, toList_length, ih, List.length_cons]; omega

theorem toList_snoc (w : V16) : w.toList = (List.range 15).map (lane w) ++ [lane w 15] := by
  unfold V16.toList
  rw [show (16 : Nat) = 15 + 1 by rfl, List.range_succ, List.map_append, List.map_singleton]

theorem toList_cons (w : V16) : ∃ l, w.toList = lane w 0 :: l := by
  unfold V16.toList
  rw [show (16 : Nat) = 15 + 1 by rfl, List.range_succ_eq_map, List.map_cons]
  exact ⟨_, rfl⟩

theorem step_noncont_good (q q1 : Q) (b : Nat) (hs : step q b = some q1)
    (hb : isCont b = false) : q = .q0 ∧ q1 ≠ .m3 ∧ q1 ≠ .m4a ∧ q1 ≠ .m4b := by
  have hnc : ¬ (0x80 ≤ b ∧ b ≤ 0xBF) := by
    intro h
    rw [(isCont_iff b).2 h] at hb
    cases hb
  by_cases hq : q = .q0
  · subst hq
    refine ⟨rfl, ?_⟩
    rcases step_q0_cases q1 b hs with ⟨_, rfl⟩ | ⟨_, _, rfl⟩ | ⟨_, _, rfl⟩ | ⟨_, rfl⟩ |
        ⟨_, rfl⟩ | ⟨_, _, _, rfl⟩ | ⟨_, rfl⟩ | ⟨_, _, rfl⟩ | ⟨_, rfl⟩ <;> decide
  · obtain ⟨h1, h2, _⟩ := step_mid_some q q1 b hq hs
    exfalso
    cases q <;> first | exact absurd rfl hq | (simp only [accepts] at h1 h2; omega)

/-- The state of the automaton at a window boundary does not await a third or fourth byte
when the stream starts there, when the byte before is no continuation byte, or when the byte
after is no continuation byte. -/
theorem boundary_good (pre : List V16) (w : V16) (q q1 : Q)
    (h0 : dfaRun .q0 (windowBytes pre) = some q) (h1 : dfaRun q w.toList = some q1)
    (hc : pre = [] ∨ isCont (w 0) = false ∨
      ∃ wl, pre.getLast? = some wl ∧ isCont (wl 15) = false) :
    q ≠ .m3 ∧ q ≠ .m4a ∧ q ≠ .m4b := by
  rcases hc with rfl | hc | ⟨wl, hl, hc⟩
  · simp only [windowBytes, dfaRun, Option.some.injEq] at h0
    subst h0
    decide
  · obtain ⟨l, hl⟩ := toList_cons w
    rw [hl] at h1
    obtain ⟨qm, h2, _⟩ := (dfa_cons _ _ _ _).1 h1
    rw [lane_lt w 0 (by decide)] at h2
    have := (step_noncont_good q qm _ h2 hc).1
    subst this
    decide
  · obtain ⟨ys, rfl⟩ := List.getLast?_eq_some_iff.1 hl
    rw [windowBytes_append, windowBytes, windowBytes, List.append_nil, toList_snoc,
      ← List.append_assoc] at h0
    obtain ⟨qm, _, h2⟩ := (dfaRun_snoc _ _ _ _).1 h0
    rw [lane_lt wl 15 (by decide)] at h2
    exact (step_noncont_good qm q _ h2 hc).2

/-- After `check_utf8_bytes` on a window of a well-formed stream, the carried length of a
lane is the number of bytes up to the end of its character, for every lane but lane 0 and
for lane 0 under the boundary condition. -/
theorem carried_exact (pre : List V16) (w : V16) (post : List V16)
    (hwf : wellFormedUtf8 (windowBytes (pre ++ w :: post)) = true)
    (hna : check_ascii_neon w = false) (i : Fin 16)
    (hc : i.val ≠ 0 ∨ pre = [] ∨ isCont (w 0) = false ∨
      ∃ wl, pre.getLast? = some wl ∧ isCont (wl 15) = false) :
    (feed utf8_checker.fresh (pre ++ [w])).previous.carried_continuations i =
      (remainingBytes (windowBytes (pre ++ w :: post))).getD (16 * pre.length + i.val) 0 := by
  have hrun := dfaRun_of_wellFormed _ hwf
  rw [windowBytes_append, windowBytes] at hrun ⊢
  obtain ⟨q, h0, h1⟩ := dfaRun_of_append _ _ _ _ hrun
  obtain ⟨q1, h2, h3⟩ := dfaRun_of_append _ _ _ _ h1
  have hI := feed_sound pre _ .q0 q Inv_fresh h0
  rw [feed_append, feed_cons, feed_nil]
  unfold check_next_input
  rw [hna, if_neg (by decide), check_utf8_bytes_carried]
  have hg : 1 ≤ i.val ∨ (q ≠ .m3 ∧ q ≠ .m4a ∧ q ≠ .m4b) := by
    rcases hc with hc | hc
    · exact Or.inl (by omega)
    · exact Or.inr (boundary_good pre w q q1 h0 h2 hc)
  rw [lanes_exact _ w q hI.2.2 16 (le_refl _) q1 h2 i.val i.isLt hg]
  unfold remainingBytes
  have e0 : pending .q0 = 0 := rfl
  rw [← e0, rem_append .q0 q _ _ h0, rem_append q q1 _ _ h2,
    List.getD_append_right _ _ _ _ (by rw [remAux_length, windowBytes_length]; omega),
    remAux_length, windowBytes_length, Nat.add_sub_cancel_left,
    List.getD_append _ _ _ _ (by rw [remAux_length, toList_length]; exact i.isLt)]
  rfl

/-! ## Lane 0 on a character that began two or three bytes earlier -/

/-- A continuation byte is accepted only inside a character, and leads to the next state of
that character. -/
theorem step_cont (q q1 : Q) (b : Nat) (hs : step q b = some q1) (hb : isCont b = true) :
    q ≠ .q0 ∧ q1 = (accepts q).2.2 := by
  have hc := (isCont_iff b).1 hb
  by_cases hq : q = .q0
  · subst hq
    exfalso
    rcases step_q0_cases q1 b hs with ⟨h, _⟩ | ⟨h, _, _⟩ | ⟨h, _, _⟩ | ⟨h, _⟩ |
        ⟨h, _⟩ | ⟨h, _, _, _⟩ | ⟨h, _⟩ | ⟨h, _, _⟩ | ⟨h, _⟩ <;> omega
  · exact ⟨hq, (step_mid_some q q1 b hq hs).2.2⟩

/-- When the last byte of the window before and the first byte of the window are both
continuation bytes, the automaton awaits a third or fourth byte at the boundary. -/
theorem boundary_inside (pre : List V16) (w : V16) (q q1 : Q)
    (h0 : dfaRun .q0 (windowBytes pre) = some q) (h1 : dfaRun q w.toList = some q1)
    (hc0 : isCont (w 0) = true) (wl : V16) (hl : pre.getLast? = some wl)
    (hc : isCont (wl 15) = true) : q = .m3 ∨ q = .m4a ∨ q = .m4b := by
  obtain ⟨l, hw⟩ := toList_cons w
  rw [hw] at h1
  obtain ⟨qn, h2, _⟩ := (dfa_cons _ _ _ _).1 h1
  rw [lane_lt w 0 (by decide)] at h2
  have hq0 := (step_cont q qn _ h2 hc0).1
  obtain ⟨ys, rfl⟩ := List.getLast?_eq_some_iff.1 hl
  rw [windowBytes_append, windowBytes, windowBytes, List.append_nil, toList_snoc,
    ← List.append_assoc] at h0
  obtain ⟨qm, _, h3⟩ := (dfaRun_snoc _ _ _ _).1 h0
  rw [lane_lt wl 15 (by decide)] at h3
  obtain ⟨hm, hq⟩ := step_cont qm q _ h3 hc
  subst hq
  cases qm <;> first | exact absurd rfl hm | exact absurd rfl hq0 | decide

/-- In a state that awaits a third or fourth byte, the carried length computed for lane 0 from
the lookback is twice the number of bytes up to the end of the character. -/
theorem K_step_double (q q1 : Q) (s : LaneSt) (b : Nat) (hK : K 0 q s) (hA : s.A = s.D)
    (hs : step q b = some q1) (hq : q = .m3 ∨ q = .m4a ∨ q = .m4b) :
    (laneStepN s b).D = 2 * (pending q1 + 1) := by
  obtain ⟨A, B, C, P, H, D, E⟩ := s
  have hq0 : q ≠ .q0 := by rcases hq with rfl | rfl | rfl <;> decide
  obtain ⟨h1, h2, rfl⟩ := step_mid_some q q1 b hq0 hs
  dsimp only at hA
  rcases hq with rfl | rfl | rfl
  all_goals
    simp only [accepts] at h1 h2 ⊢
    simp only [K] at hK
    simp only [laneStepN, pending, lenN_cont b (by omega) (by omega)]
    omega

theorem seed_A_eq_D (st : utf8_checker) : (seed st).A = (seed st).D := rfl

/-- After `check_utf8_bytes` on a window of a well-formed stream whose first byte is the third
or fourth byte of its character, lane 0 of the carried lengths is twice the number of bytes up
to the end of that character. -/
theorem carried_double (pre : List V16) (w : V16) (post : List V16)
    (hwf : wellFormedUtf8 (windowBytes (pre ++ w :: post)) = true)
    (hna : check_ascii_neon w = false)
    (hc0 : isCont (w 0) = true) (wl : V16) (hl : pre.getLast? = some wl)
    (hc : isCont (wl 15) = true) :
    (feed utf8_checker.fresh (pre ++ [w])).previous.carried_continuations 0 =
      2 * (remainingBytes (windowBytes (pre ++ w :: post))).getD (16 * pre.length) 0 ∧
    1 ≤ (remainingBytes (windowBytes (pre ++ w :: post))).getD (16 * pre.length) 0 ∧
    (remainingBytes (windowBytes (pre ++ w :: post))).getD (16 * pre.length) 0 ≤ 2 := by
  have hrun := dfaRun_of_wellFormed _ hwf
  rw [windowBytes_append, windowBytes] at hrun ⊢
  obtain ⟨q, h0, h1⟩ := dfaRun_of_append _ _ _ _ hrun
  obtain ⟨q1, h2, h3⟩ := dfaRun_of_append _ _ _ _ h1
  have hI := feed_sound pre _ .q0 q Inv_fresh h0
  have hq := boundary_inside pre w q q1 h0 h2 hc0 wl hl hc
  obtain ⟨l, hw⟩ := toList_cons w
  have h2c := h2
  rw [hw] at h2c
  obtain ⟨qn, h4, _⟩ := (dfa_cons _ _ _ _).1 h2c
  have hrem : (remainingBytes (windowBytes pre ++ (w.toList ++ windowBytes post))).getD
      (16 * pre.length) 0 = pending qn + 1 := by
    unfold remainingBytes
    have e0 : pending .q0 = 0 := rfl
    rw [← e0, rem_append .q0 q _ _ h0,
      List.getD_append_right _ _ _ _ (by rw [remAux_length, windowBytes_length]),
      remAux_length, windowBytes_length, Nat.sub_self, hw, List.cons_append,
      rem_step q qn _ _ h4]
    rfl
  rw [hrem, feed_append, feed_cons, feed_nil]
  unfold check_next_input
  rw [hna, if_neg (by decide), check_utf8_bytes_carried]
  have hb := step_some_lt _ _ _ h4
  obtain ⟨bA, bB, _, _, _, _⟩ := K_bounds _ _ _ hI.2.2
  have e1 : laneRun (feed utf8_checker.fresh pre) w ((0 : Fin 16).val + 1) =
      laneStep (seed (feed utf8_checker.fresh pre)) (lane w 0) := rfl
  rw [e1, laneStep_eq _ _ hb bA bB,
    K_step_double q qn _ _ hI.2.2 (seed_A_eq_D _) h4 hq]
  refine ⟨rfl, by omega, ?_⟩
  have h5 := h4
  rw [lane_lt w 0 (by decide)] at h5
  have hqn := (step_cont q qn _ h5 hc0).2
  subst hqn
  rcases hq with rfl | rfl | rfl <;> decide

/-- C17, as the claim states it, fails: with `initial_lengths = carries = 1` in every lane (an
ASCII byte) the two comparisons differ (`1 > 1` is false, `1 > 0` is true) and no lane is
raised, and with `initial_lengths = carries = 0` they agree and every lane is raised. -/
theorem check_continuations_differ_no_error :
    (¬ (toS8 1 > toS8 1) ∧ toS8 1 > toS8 0) ∧
    (∀ i, (check_continuations utf8_checker.fresh (vdupq_n 1) (vdupq_n 1)).has_error i = 0) ∧
    (¬ (toS8 0 > toS8 0) ∧ ¬ (toS8 0 > toS8 0)) ∧
    (∀ i, (check_continuations utf8_checker.fresh (vdupq_n 0) (vdupq_n 0)).has_error i = 0xFF) := by
  decide

/-- C17, amended: for every checker state, every pair of vectors and every lane `i`,
`check_continuations` ors `0xFF` into lane `i` of `has_error` exactly when the signed
comparisons `carries[i] > initial_lengths[i]` and `initial_lengths[i] > 0` have the same truth
value; a lane in which they differ is left as it was. -/
theorem check_continuations_raises_on_equal (st : utf8_checker) (initial_lengths carries : V16)
    (i : Fin 16) :
    (check_continuations st initial_lengths carries).has_error i =
      (st.has_error i |||
        if (toS8 (carries i) > toS8 (initial_lengths i) ↔ toS8 (initial_lengths i) > 0)
        then 0xFF else 0) :=
  check_continuations_has_error st initial_lengths carries i

/-- C18, as the code behaves: on a fresh checker and the window `C0 80 00 ...`, running
`check_smaller_than_0xF4` first leaves lane 1 of `has_error` at `0xFF` (raised by
`check_overlong`), running it last leaves lane 1 zero, because it assigns to `has_error`. -/
theorem checks_do_not_commute :
    (check_overlong
      (check_first_continuation_max
        (check_smaller_than_0xF4 utf8_checker.fresh (vld1q [0xC0, 0x80]))
        (vld1q [0xC0, 0x80]) (vextq_s8 (vdupq_n 0) (vld1q [0xC0, 0x80]) (16 - 1)))
      (vld1q [0xC0, 0x80]) (vextq_s8 (vdupq_n 0) (vld1q [0xC0, 0x80]) (16 - 1))
      (vshrq_n_u8 (vld1q [0xC0, 0x80]) 4)).has_error ⟨1, by decide⟩ = 0xFF ∧
    (check_smaller_than_0xF4
      (check_overlong
        (check_first_continuation_max utf8_checker.fresh
          (vld1q [0xC0, 0x80]) (vextq_s8 (vdupq_n 0) (vld1q [0xC0, 0x80]) (16 - 1)))
        (vld1q [0xC0, 0x80]) (vextq_s8 (vdupq_n 0) (vld1q [0xC0, 0x80]) (16 - 1))
        (vshrq_n_u8 (vld1q [0xC0, 0x80]) 4))
      (vld1q [0xC0, 0x80])).has_error ⟨1, by decide⟩ = 0 := by
  decide

/-- C20, as the claim states it, fails: after `check_next_input` on the window
`F0 F0 F0 F0 00 ...` from a fresh checker, lane 3 of `previous.carried_continuations` is 12,
and the comparison of `check_carried_continuations` raises lane 3 although lane 15 is 1. -/
theorem sentinel_nine_exceeded :
    (check_next_input utf8_checker.fresh
      (vld1q [0xF0, 0xF0, 0xF0, 0xF0])).previous.carried_continuations ⟨3, by decide⟩ = 12 ∧
    (check_next_input utf8_checker.fresh
      (vld1q [0xF0, 0xF0, 0xF0, 0xF0])).previous.carried_continuations ⟨15, by decide⟩ = 1 ∧
    vcgtq_s8 (check_next_input utf8_checker.fresh
        (vld1q [0xF0, 0xF0, 0xF0, 0xF0])).previous.carried_continuations
      (vld1q [9, 9, 9, 9, 9, 9, 9, 9, 9, 9, 9, 9, 9, 9, 9, 1]) ⟨3, by decide⟩ = 0xFF := by
  decide

/-- C20, amended: for every state reached from a fresh checker by `check_next_input` on windows
whose bytes so far begin a well-formed UTF-8 string, every lane of
`previous.carried_continuations` is at most 4 (so lanes 0..14 pass the entries 9), and
`check_carried_continuations` leaves some lane of `has_error` set if and only if lane 15 of
`previous.carried_continuations` exceeds 1. -/
theorem sentinel_on_legal_stream (ws : List V16) (rest : List Nat)
    (h : wellFormedUtf8 (windowBytes ws ++ rest) = true) :
    (∀ i, (feed utf8_checker.fresh ws).previous.carried_continuations i ≤ 4) ∧
    ((∃ i, (feed utf8_checker.fresh ws).check_carried_continuations.has_error i ≠ 0) ↔
      1 < (feed utf8_checker.fresh ws).previous.carried_continuations ⟨15, by decide⟩) := by
  obtain ⟨q, h1, h2, _⟩ := Inv_of_legal_start ws rest h
  exact ⟨h2, tail_mask_iff _ h1 h2⟩

/-- Instance of the amended C20: the window ending in `E2 82`, continued by `AC`. -/
theorem sentinel_on_legal_stream_witness :
    wellFormedUtf8 (windowBytes [vld1q (List.replicate 14 0x41 ++ [0xE2, 0x82])] ++ [0xAC])
      = true ∧
    ((∃ i, (feed utf8_checker.fresh
        [vld1q (List.replicate 14 0x41 ++ [0xE2, 0x82])]).check_carried_continuations.has_error i
          ≠ 0) ↔
      1 < (feed utf8_checker.fresh
        [vld1q (List.replicate 14 0x41 ++ [0xE2, 0x82])]).previous.carried_continuations
          ⟨15, by decide⟩) :=
  ⟨by decide, (sentinel_on_legal_stream [vld1q (List.replicate 14 0x41 ++ [0xE2, 0x82])] [0xAC]
    (by decide)).2⟩

/-- C11, as the claim states it, fails at `x = 0`: on the branch that calls `__builtin_clzll`
the result for 0 is not defined (the source comment says so), so it is not 64. -/
theorem leading_zeroes_zero_undefined : leading_zeroes false 0 ≠ some 64 := by
  decide

/-- C11, amended: for every non-zero 64-bit `x`, on both branches `leading_zeroes x` is 63
minus the index `h` of the highest set bit of `x` (bit `h` is set, every higher bit is clear),
and `leading_zeroes 1 = 63`; for `x = 0` the `_MSC_VER` branch returns 64 and the
`__builtin_clzll` branch has no defined result. -/
theorem leading_zeroes_highest_set_bit (msvc : Bool) (x : Nat) (h0 : 0 < x) (hx : x < 2 ^ 64) :
    (∃ h, h < 64 ∧ leading_zeroes msvc x = some (63 - h) ∧ x.testBit h = true ∧
      ∀ j, h < j → x.testBit j = false) ∧
    leading_zeroes msvc 1 = some 63 ∧ leading_zeroes true 0 = some 64 ∧
    leading_zeroes false 0 = none := by
  obtain ⟨h1, h2, h3⟩ := clzScan_spec 64 x h0 hx
  refine ⟨⟨63 - clzScan 64 x, by omega, ?_, h2, h3⟩, ?_, by decide, by decide⟩
  · rw [leading_zeroes_nonzero msvc x h0 hx]
    congr 1
    omega
  · cases msvc <;> decide

/-- Instance of the amended C11 at `x = 40` on the builtin branch. -/
theorem leading_zeroes_highest_set_bit_witness :
    (0 < 40 ∧ 40 < 2 ^ 64) ∧ leading_zeroes false 40 = some 58 ∧
    leading_zeroes false 1 = some 63 :=
  ⟨by decide, by decide, (leading_zeroes_highest_set_bit false 40 (by decide) (by decide)).2.1⟩

/-- C12: for every non-zero 64-bit `x`, `clear_lowest_bit x` has exactly the bits of `x` except
the one at index `trailing_zeroes x`; `clear_lowest_bit 0b1010 = 0b1000`;
`hamming (clear_lowest_bit x) = hamming x - 1`; iterating `clear_lowest_bit` from `x` gives 0
after `hamming x` steps and not before; the indices `trailing_zeroes` of the iterates increase
strictly and are exactly the set bits of `x`. -/
theorem clear_lowest_bit_iteration (x : Nat) (h0 : 0 < x) (hx : x < 2 ^ 64) :
    (∀ j, (clear_lowest_bit x).testBit j = (x.testBit j && decide (j ≠ trailing_zeroes x))) ∧
    clear_lowest_bit 0b1010 = 0b1000 ∧
    hamming (clear_lowest_bit x) = hamming x - 1 ∧
    Nat.iterate clear_lowest_bit (hamming x) x = 0 ∧
    (∀ k, k < hamming x → Nat.iterate clear_lowest_bit k x ≠ 0) ∧
    (∀ k, k + 1 < hamming x →
      trailing_zeroes (Nat.iterate clear_lowest_bit k x) <
        trailing_zeroes (Nat.iterate clear_lowest_bit (k + 1) x)) ∧
    (∀ j, x.testBit j = true ↔
      ∃ k, k < hamming x ∧ trailing_zeroes (Nat.iterate clear_lowest_bit k x) = j) := by
  obtain ⟨i1, i2⟩ := iterate_clear (hamming x) x hx rfl
  refine ⟨clear_lowest_bit_testBit x h0 hx, by decide, ?_, i1, fun k hk => (i2 k hk).1, ?_,
    visited_bits (hamming x) x hx rfl⟩
  · have := hamming_clear x h0 hx
    omega
  · intro k hk
    obtain ⟨a1, a2, _⟩ := i2 k (by omega)
    obtain ⟨b1, _, _⟩ := i2 (k + 1) hk
    rw [Function.iterate_succ_apply'] at b1 ⊢
    exact trailing_zeroes_clear_lt _ (Nat.pos_of_ne_zero a1) a2 b1

/-- Instance of C12 at `x = 0b1010`. -/
theorem clear_lowest_bit_iteration_witness :
    (0 < 0b1010 ∧ 0b1010 < 2 ^ 64) ∧ hamming (clear_lowest_bit 0b1010) = hamming 0b1010 - 1 ∧
    Nat.iterate clear_lowest_bit (hamming 0b1010) 0b1010 = 0 :=
  ⟨by decide, (clear_lowest_bit_iteration 0b1010 (by decide) (by decide)).2.2.1,
    (clear_lowest_bit_iteration 0b1010 (by decide) (by decide)).2.2.2.1⟩

/-- C13: for every 64-bit `x`, 0 included, `hamming x` (the 8-bit sum over the eight byte lanes
of the per-byte bit counts) equals `population_count x`, the number of set bits among the 64
bits of the word; it is at most 64, and the sum of the eight lanes does not wrap. -/
theorem hamming_is_population_count (x : Nat) :
    hamming x = population_count x ∧ hamming x ≤ 64 ∧
    vcnt_u8 (toU8x8 x) 0 + vcnt_u8 (toU8x8 x) 1 + vcnt_u8 (toU8x8 x) 2 + vcnt_u8 (toU8x8 x) 3 +
      vcnt_u8 (toU8x8 x) 4 + vcnt_u8 (toU8x8 x) 5 + vcnt_u8 (toU8x8 x) 6 +
      vcnt_u8 (toU8x8 x) 7 = hamming x := by
  have h1 := hamming_eq x
  have h2 : population_count x ≤ 64 := bitCount_le 64 x
  refine ⟨h1, by omega, ?_⟩
  have h3 : hamming x = (vcnt_u8 (toU8x8 x) 0 + vcnt_u8 (toU8x8 x) 1 + vcnt_u8 (toU8x8 x) 2 +
      vcnt_u8 (toU8x8 x) 3 + vcnt_u8 (toU8x8 x) 4 + vcnt_u8 (toU8x8 x) 5 +
      vcnt_u8 (toU8x8 x) 6 + vcnt_u8 (toU8x8 x) 7) % 256 := rfl
  have hb : ∀ k, vcnt_u8 (toU8x8 x) k ≤ 8 := fun k => bitCount_le 8 _
  have b0 := hb 0
  have b1 := hb 1
  have b2 := hb 2
  have b3 := hb 3
  have b4 := hb 4
  have b5 := hb 5
  have b6 := hb 6
  have b7 := hb 7
  omega

/-- C14: for all 64-bit `a` and `b`, on both branches `add_overflow` stores `(a + b) mod 2^64`
and returns true iff `a + b >= 2^64`, `mul_overflow` stores `(a * b) mod 2^64` and returns true
iff `a * b >= 2^64`; `add_overflow (2^64 - 1) 1` returns true and stores 0. -/
theorem overflow_checked_arithmetic (msvc : Bool) (a b : Nat) (ha : a < 2 ^ 64)
    (hb : b < 2 ^ 64) :
    add_overflow msvc a b = (decide (2 ^ 64 ≤ a + b), (a + b) % 2 ^ 64) ∧
    mul_overflow msvc a b = (decide (2 ^ 64 ≤ a * b), (a * b) % 2 ^ 64) ∧
    add_overflow msvc (2 ^ 64 - 1) 1 = (true, 0) :=
  ⟨add_overflow_eq msvc a b ha hb, mul_overflow_eq msvc a b ha hb, by cases msvc <;> decide⟩

/-- Instance of C14: `2^63 + 2^63` and `2^32 * 2^32` overflow with stored value 0. -/
theorem overflow_checked_arithmetic_witness :
    (2 ^ 63 < 2 ^ 64 ∧ 2 ^ 32 < 2 ^ 64) ∧
    add_overflow false (2 ^ 63) (2 ^ 63) =
      (decide (2 ^ 64 ≤ 2 ^ 63 + 2 ^ 63), (2 ^ 63 + 2 ^ 63) % 2 ^ 64) ∧
    mul_overflow true (2 ^ 32) (2 ^ 32) =
      (decide (2 ^ 64 ≤ 2 ^ 32 * 2 ^ 32), (2 ^ 32 * 2 ^ 32) % 2 ^ 64) :=
  ⟨by decide, (overflow_checked_arithmetic false (2 ^ 63) (2 ^ 63) (by decide) (by decide)).1,
    (overflow_checked_arithmetic true (2 ^ 32) (2 ^ 32) (by decide) (by decide)).2.1⟩

/-- C19, as the claim states it, fails: the stream `00 x14 F0 90 | 80 80 00 x14` is
well-formed and its position 16 is the third byte of a four-byte character (two bytes to the
end), yet after `check_utf8_bytes` on the second window lane 0 of
`previous.carried_continuations` is 4. -/
theorem carried_length_lane0_overcount :
    wellFormedUtf8 (windowBytes [vld1q (List.replicate 14 0 ++ [0xF0, 0x90]),
      vld1q [0x80, 0x80]]) = true ∧
    (remainingBytes (windowBytes [vld1q (List.replicate 14 0 ++ [0xF0, 0x90]),
      vld1q [0x80, 0x80]])).getD 16 0 = 2 ∧
    (check_utf8_bytes (feed utf8_checker.fresh [vld1q (List.replicate 14 0 ++ [0xF0, 0x90])])
      (vld1q [0x80, 0x80])).previous.carried_continuations ⟨0, by decide⟩ = 4 := by
  decide

/-- C19, amended: for every well-formed UTF-8 stream fed window by window from a fresh checker,
after `check_utf8_bytes` on a window every lane other than lane 0 of
`previous.carried_continuations` equals the number of bytes from that position to the end of
its character, itself included; lane 0 does too when the window is the first, when lane 0 is
not a continuation byte, or when the last byte of the window before is not a continuation byte;
in the remaining case, where lane 0 and the last byte of the window before are both
continuation bytes (lane 0 is the third or fourth byte of its character), lane 0 holds twice
that number, which is 1 or 2, and so a larger value. -/
theorem carried_length_meaning (pre : List V16) (w : V16) (post : List V16)
    (hwf : wellFormedUtf8 (windowBytes (pre ++ w :: post)) = true)
    (hna : check_ascii_neon w = false) :
    (∀ i : Fin 16,
      (i.val ≠ 0 ∨ pre = [] ∨ isCont (w 0) = false ∨
        ∃ wl, pre.getLast? = some wl ∧ isCont (wl 15) = false) →
      (feed utf8_checker.fresh (pre ++ [w])).previous.carried_continuations i =
        (remainingBytes (windowBytes (pre ++ w :: post))).getD (16 * pre.length + i.val) 0) ∧
    ((isCont (w 0) = true ∧ ∃ wl, pre.getLast? = some wl ∧ isCont (wl 15) = true) →
      (feed utf8_checker.fresh (pre ++ [w])).previous.carried_continuations 0 =
        2 * (remainingBytes (windowBytes (pre ++ w :: post))).getD (16 * pre.length) 0 ∧
      1 ≤ (remainingBytes (windowBytes (pre ++ w :: post))).getD (16 * pre.length) 0 ∧
      (remainingBytes (windowBytes (pre ++ w :: post))).getD (16 * pre.length) 0 ≤ 2 ∧
      (remainingBytes (windowBytes (pre ++ w :: post))).getD (16 * pre.length) 0 <
        (feed utf8_checker.fresh (pre ++ [w])).previous.carried_continuations 0) := by
  refine ⟨fun i hc => carried_exact pre w post hwf hna i hc, ?_⟩
  rintro ⟨hc0, wl, hl, hc⟩
  obtain ⟨h1, h2, h3⟩ := carried_double pre w post hwf hna hc0 wl hl hc
  exact ⟨h1, h2, h3, by omega⟩

/-- Instance of the amended C19 on `00 x14 F0 90 | 80 80 00 x14`: lane 1 of the second window
is the last byte of the four-byte character and holds 1; lane 0 is its third byte and holds
twice the number of bytes up to its end. -/
theorem carried_length_meaning_witness :
    (wellFormedUtf8 (windowBytes ([vld1q (List.replicate 14 0 ++ [0xF0, 0x90])] ++
      vld1q [0x80, 0x80] :: [])) = true ∧ check_ascii_neon (vld1q [0x80, 0x80]) = false) ∧
    (feed utf8_checker.fresh ([vld1q (List.replicate 14 0 ++ [0xF0, 0x90])] ++
      [vld1q [0x80, 0x80]])).previous.carried_continuations ⟨1, by decide⟩ =
      (remainingBytes (windowBytes ([vld1q (List.replicate 14 0 ++ [0xF0, 0x90])] ++
        vld1q [0x80, 0x80] :: []))).getD (16 * 1 + 1) 0 ∧
    (feed utf8_checker.fresh ([vld1q (List.replicate 14 0 ++ [0xF0, 0x90])] ++
      [vld1q [0x80, 0x80]])).previous.carried_continuations 0 =
      2 * (remainingBytes (windowBytes ([vld1q (List.replicate 14 0 ++ [0xF0, 0x90])] ++
        vld1q [0x80, 0x80] :: []))).getD (16 * 1) 0 :=
  ⟨by decide,
    (carried_length_meaning [vld1q (List.replicate 14 0 ++ [0xF0, 0x90])]
      (vld1q [0x80, 0x80]) [] (by decide) (by decide)).1 ⟨1, by decide⟩ (Or.inl (by decide)),
    ((carried_length_meaning [vld1q (List.replicate 14 0 ++ [0xF0, 0x90])]
      (vld1q [0x80, 0x80]) [] (by decide) (by decide)).2
        ⟨by decide, vld1q (List.replicate 14 0 ++ [0xF0, 0x90]), rfl, by decide⟩).1⟩

end simdjson.arm64

namespace simdjson.haswell

/-- C15: for every haswell `simd_input` and every `i` (in particular `i` in 0..63), bit `i`
of `to_bitmask` is the top bit of byte `i` of the window, also when the second movemask is
negative, which is the case exactly when byte 63 has its top bit set. -/
theorem to_bitmask_top_bits (inp : simd_input) :
    (∀ i, inp.to_bitmask.testBit i = (inp.byte i).testBit 7) ∧
    decide (_mm256_movemask_epi8 inp.chunks1 < 0) = (inp.byte 63).testBit 7 := by
  refine ⟨to_bitmask_testBit inp, ?_⟩
  rw [movemask_neg]
  rfl

/-- C16: for every 64-byte window, every byte constant `m` below 256 and every `i` below 64,
bit `i` of `eq m` is set iff byte `i` equals `m`, and bit `i` of `lteq m` is set iff byte `i`
is at most `m` as unsigned values. -/
theorem comparison_masks (inp : simd_input) (m i : Nat) (hm : m < 256) (hi : i < 64) :
    (inp.eq m).testBit i = decide (inp.byte i = m) ∧
    (inp.lteq m).testBit i = decide (inp.byte i ≤ m) :=
  ⟨eq_testBit inp m i hm hi, lteq_testBit inp m i hm hi⟩

/-- Instance of C16: byte 63 is `0x80`, compared with `0x80`. -/
theorem comparison_masks_witness :
    ((0x80 : Nat) < 256 ∧ (63 : Nat) < 64) ∧
    (simd_input.eq (simd_input.mk (fun _ => 0x41) (fun i => if i.val = 31 then 0x80 else 0xC3))
      0x80).testBit 63 =
      decide (simd_input.byte
        (simd_input.mk (fun _ => 0x41) (fun i => if i.val = 31 then 0x80 else 0xC3)) 63 = 0x80) :=
  ⟨by decide, (comparison_masks
    (simd_input.mk (fun _ => 0x41) (fun i => if i.val = 31 then 0x80 else 0xC3)) 0x80 63
    (by decide) (by decide)).1⟩

end simdjson.haswell
